import Mathlib

/-!
# Verification of the allocator heap and the bounded task queue

This development shallowly embeds the two cores of the repository:

* Core A: the block-list heap of `parallel_allocator/src/mem_block.c`
  (`mem_block_*`, `heap_*`), and
* Core B: the bounded task queue and thread pool of the parallel-matrix
  sources (`task_queue_*`, `thread_pool_*`).

Machine integers (`size_t`, `uintptr_t`) are modelled as `Nat` with explicit
reduction modulo `2 ^ 64` at the operations where the C code can wrap
(alignment macros, address/size sums, statistic counters of the heap).
The C doubly-linked block list is modelled as the `List` of blocks in
`next`-chain order (the `next` pointers of the list are maintained
structurally by every operation in the source), while each block's `prev`
pointer is modelled explicitly as the `start_addr` of the block it
designates, because the source contains a path (the ordered insertion in
`heap_allocate`) whose `prev`-pointer updates are not structural.

Locks and condition variables serialise the critical sections; each
critical section is embedded as one atomic state transformation, and
interleavings are sequences of such sections.
-/

namespace OsRepo

/- ===================== Core A: block metadata layer ===================== -/

/-- `2 ^ 64`: modulus of `size_t` / `uintptr_t` arithmetic. -/
def MOD : Nat := 2 ^ 64

/-- `PAGE_SIZE` from `common.h`. -/
def PAGE_SIZE : Nat := 4096

/-- `ALIGN_SIZE` from `common.h`. -/
def ALIGN_SIZE : Nat := 8

/-- `ALIGN_UP(x, align) = ((x + align - 1) & ~(align - 1))` on 64-bit
`size_t`, for the power-of-two alignments 8 and 4096 used by the heap:
the wrapped sum with its low bits cleared. -/
def ALIGN_UP (x align : Nat) : Nat := ((x + align - 1) % MOD) / align * align

/-- `IS_ALIGNED(x, align) = ((x & (align - 1)) == 0)` for a power of two. -/
def IS_ALIGNED (x align : Nat) : Bool := x % align == 0

/-- 64-bit wrapping addition (`size_t`/`uintptr_t` `+`). -/
def add64 (a b : Nat) : Nat := (a + b) % MOD

/-- 64-bit wrapping subtraction (`size_t` `-`). -/
def sub64 (a b : Nat) : Nat := (a + (MOD - b % MOD)) % MOD

/-- `mem_state_t` from `vmalloc.h`. -/
inductive mem_state_t where
  | MEM_FREE
  | MEM_ALLOCATED
deriving DecidableEq, Repr, Inhabited

export mem_state_t (MEM_FREE MEM_ALLOCATED)

/-- `mem_block_t`. The `next` pointer is represented positionally (the heap
holds the list of blocks in `next`-chain order); the `prev` pointer is kept
explicitly as the `start_addr` of the designated block (`none` = `NULL`),
since block start addresses never change and identify live blocks. -/
structure mem_block_t where
  start_addr : Nat
  size : Nat
  state : mem_state_t
  prev : Option Nat
deriving DecidableEq, Repr, Inhabited

/-- `mem_block_create(start_addr, size, state)` (mem_block.c:22-68): rejects
zero size and a start address that is not 8-byte aligned; otherwise returns
a fresh unlinked block. -/
def mem_block_create (start_addr size : Nat) (state : mem_state_t) :
    Option mem_block_t :=
  if size = 0 then none
  else if ¬ IS_ALIGNED start_addr ALIGN_SIZE then none
  else some { start_addr := start_addr, size := size, state := state, prev := none }

/-- `mem_block_is_adjacent(b1, b2)` (mem_block.c:155-159):
`b1->start_addr + b1->size == b2->start_addr` with wrapping address sum. -/
def mem_block_is_adjacent (b1 b2 : mem_block_t) : Bool :=
  add64 b1.start_addr b1.size == b2.start_addr

/-- `mem_block_contains(b, addr)` (mem_block.c:161-166):
`addr >= b->start_addr && addr < b->start_addr + b->size` (wrapping sum). -/
def mem_block_contains (b : mem_block_t) (addr : Nat) : Bool :=
  b.start_addr ≤ addr && addr < add64 b.start_addr b.size

/-- `mem_block_can_satisfy(b, size)` (mem_block.c:168-172):
`b->state == MEM_FREE && b->size >= size`. -/
def mem_block_can_satisfy (b : mem_block_t) (size : Nat) : Bool :=
  b.state == MEM_FREE && size ≤ b.size

/-- `mem_block_verify(b)` (mem_block.c:194-218): start aligned, size
non-zero, `start + size` does not wrap below `start`, state valid (the last
check cannot fail in the typed model, where `state` has exactly the two
legal values). -/
def mem_block_verify_ok (b : mem_block_t) : Bool :=
  IS_ALIGNED b.start_addr ALIGN_SIZE && b.size != 0 &&
    !(add64 b.start_addr b.size < b.start_addr)

/-- `mem_block_split(block, size)` (mem_block.c:82-123): guards, then the
shortened left block and the freshly created right block
`[start+size, start+orig_size)` (FREE, `prev` pointing back at `block`).
The surrounding link updates (the successor's `prev`, `block->next`) are
performed by the caller context `splitChainAt`, which owns the chain. -/
def mem_block_split (block : mem_block_t) (size : Nat) :
    Option (mem_block_t × mem_block_t) :=
  if block.state ≠ MEM_FREE then none
  else if size = 0 ∨ block.size ≤ size ∨ ¬ IS_ALIGNED size ALIGN_SIZE then none
  else
    let new_block_size := block.size - size
    let new_block_addr := add64 block.start_addr size
    match mem_block_create new_block_addr new_block_size MEM_FREE with
    | none => none
    | some nb =>
        some ({ block with size := size },
              { nb with prev := some block.start_addr })

/-- Set the `prev` pointer of the head of `l` (used for
`b->next->prev = x` where `l` is the chain after `b`). -/
def setHeadPrev (pa : Nat) : List mem_block_t → List mem_block_t
  | [] => []
  | s :: rest => { s with prev := some pa } :: rest

/-- `mem_block_split` applied to the block at chain index `i`, with the link
surgery of mem_block.c:109-117: the new block enters the chain directly
after `block`, and the old successor's `prev` pointer is redirected to it. -/
def splitChainAt : List mem_block_t → Nat → Nat → Option (List mem_block_t)
  | [], _, _ => none
  | b :: rest, 0, size =>
      match mem_block_split b size with
      | none => none
      | some (left, right) =>
          some (left :: right :: setHeadPrev right.start_addr rest)
  | b :: rest, i + 1, size =>
      match splitChainAt rest i size with
      | none => none
      | some rest2 => some (b :: rest2)

/- ===================== Core A: heap ===================== -/

/-- `HEAP_STRATEGY_FIRST_FIT` (heap.h). -/
def HEAP_STRATEGY_FIRST_FIT : Nat := 0

/-- `HEAP_STRATEGY_BEST_FIT` (heap.h). -/
def HEAP_STRATEGY_BEST_FIT : Nat := 1

/-- `HEAP_STRATEGY_WORST_FIT` (heap.h). -/
def HEAP_STRATEGY_WORST_FIT : Nat := 2

/-- `heap_t` (heap.h). The mutex and `lock_enabled` flag serialise the
operations and are not part of the sequential state. -/
structure heap_t where
  blocks : List mem_block_t
  block_count : Nat
  total_allocated : Nat
  total_free : Nat
  peak_allocated : Nat
  alloc_strategy : Nat
deriving DecidableEq, Repr, Inhabited

/-- `heap_init(initial_size, enable_lock)` (mem_block.c:269-331). `vm` is
the address `vmalloc` hands back for the initial reservation (`none` =
reservation failed). -/
def heap_init (initial_size : Nat) (vm : Option Nat) : Option heap_t :=
  if initial_size = 0 ∨ initial_size % PAGE_SIZE ≠ 0 then none
  else
    match vm with
    | none => none
    | some o =>
        match mem_block_create o initial_size MEM_FREE with
        | none => none
        | some b =>
            some { blocks := [b], block_count := 1, total_allocated := 0,
                   total_free := initial_size, peak_allocated := 0,
                   alloc_strategy := HEAP_STRATEGY_FIRST_FIT }

/-- The `FIRST_FIT` scan of `heap_find_free_block` (mem_block.c:497-505):
index of the first block with `mem_block_can_satisfy`. -/
def firstFitScan (size : Nat) : List mem_block_t → Option Nat
  | [] => none
  | b :: rest =>
      if mem_block_can_satisfy b size then some 0
      else (firstFitScan size rest).map (· + 1)

/-- The `BEST_FIT` scan (mem_block.c:507-518): `selected` is replaced
whenever a satisfying block is strictly smaller than the current selection,
so the first block attaining the minimal satisfying size wins. `i` is the
chain index of the head of the remaining list. -/
def bestFitScan (size : Nat) :
    List mem_block_t → Option (Nat × mem_block_t) → Nat → Option (Nat × mem_block_t)
  | [], selected, _ => selected
  | b :: rest, selected, i =>
      let smaller : Bool :=
        match selected with
        | none => true
        | some (_, s) => decide (b.size < s.size)
      let selected2 :=
        if mem_block_can_satisfy b size && smaller then some (i, b)
        else selected
      bestFitScan size rest selected2 (i + 1)

/-- The `WORST_FIT` scan (mem_block.c:520-531): as `bestFitScan` but keeping
the first block attaining the maximal satisfying size. -/
def worstFitScan (size : Nat) :
    List mem_block_t → Option (Nat × mem_block_t) → Nat → Option (Nat × mem_block_t)
  | [], selected, _ => selected
  | b :: rest, selected, i =>
      let larger : Bool :=
        match selected with
        | none => true
        | some (_, s) => decide (s.size < b.size)
      let selected2 :=
        if mem_block_can_satisfy b size && larger then some (i, b)
        else selected
      worstFitScan size rest selected2 (i + 1)

/-- `heap_find_free_block(heap, size)` (mem_block.c:490-538), returning the
chain index of the block the C function returns a pointer to. Rejects a
NULL heap (not representable here) and `size == 0`; an unknown strategy
falls through to `NULL`. -/
def heap_find_free_block (h : heap_t) (size : Nat) : Option Nat :=
  if size = 0 then none
  else if h.alloc_strategy = HEAP_STRATEGY_FIRST_FIT then
    firstFitScan size h.blocks
  else if h.alloc_strategy = HEAP_STRATEGY_BEST_FIT then
    (bestFitScan size h.blocks none 0).map (·.1)
  else if h.alloc_strategy = HEAP_STRATEGY_WORST_FIT then
    (worstFitScan size h.blocks none 0).map (·.1)
  else none

/-- `heap_find_block(heap, addr)` (mem_block.c:475-488), returning the chain
index of the first block that contains `addr`. -/
def findBlockScan (addr : Nat) : List mem_block_t → Option Nat
  | [] => none
  | b :: rest =>
      if mem_block_contains b addr then some 0
      else (findBlockScan addr rest).map (· + 1)

/-- `heap_find_block` with its NULL-argument guard. -/
def heap_find_block (h : heap_t) (addr : Nat) : Option Nat :=
  if addr = 0 then none else findBlockScan addr h.blocks

/-- The ordered insertion of a newly reserved block in `heap_allocate`
(mem_block.c:376-397), called when `prev_block != NULL` (some chain prefix
has `start_addr <` the new block's). Returns the new chain and the index of
the inserted block.

The source inserts with
`new_block->prev = prev_block; new_block->next = prev_block->next;
prev_block->next = new_block;
if (prev_block->next != NULL) { prev_block->next->prev = new_block; }`
— the test reads `prev_block->next` AFTER it was overwritten with
`new_block`, so it always succeeds and executes
`new_block->prev = new_block`: the inserted block's `prev` pointer
designates the inserted block itself, and the old successor's `prev` is
left unchanged. The model reproduces exactly that effect. -/
def insertExtendedAux (nb : mem_block_t) : List mem_block_t → List mem_block_t × Nat
  | [] => ([{ nb with prev := some nb.start_addr }], 0)
  | b :: rest =>
      if b.start_addr < nb.start_addr then
        let (l, i) := insertExtendedAux nb rest
        (b :: l, i + 1)
      else ({ nb with prev := some nb.start_addr } :: b :: rest, 0)

/-- The full ordered insertion of mem_block.c:376-397. When no block has
`start_addr <` the new address (`prev_block == NULL`), the new block is
prepended with `prev = NULL` and the old head's `prev` is set to it
(this branch performs its updates in a correct order). -/
def insertExtended (nb : mem_block_t) (bs : List mem_block_t) :
    List mem_block_t × Nat :=
  match bs with
  | [] => ([nb], 0)
  | b :: rest =>
      if b.start_addr < nb.start_addr then
        let (l, i) := insertExtendedAux nb rest
        (b :: l, i + 1)
      else ({ nb with prev := none } :: { b with prev := some nb.start_addr } :: rest, 0)

/-- The tail of `heap_allocate` (mem_block.c:405-435) operating on the block
at chain index `i`: split when the block is strictly larger than the
aligned request (incrementing `block_count`), mark it `MEM_ALLOCATED`,
account `total_allocated += size`, `total_free -= size`, update the peak,
and return the block's start address. -/
def heap_alloc_finish (h : heap_t) (i : Nat) (aligned_size : Nat) :
    Option Nat × heap_t :=
  match h.blocks[i]? with
  | none => (none, h)
  | some b0 =>
      let h1 :=
        if aligned_size < b0.size then
          match splitChainAt h.blocks i aligned_size with
          | none => none
          | some blocks2 =>
              some { h with blocks := blocks2, block_count := add64 h.block_count 1 }
        else some h
      match h1 with
      | none => (none, h)
      | some h2 =>
          match h2.blocks[i]? with
          | none => (none, h2)
          | some b =>
              let b2 := { b with state := MEM_ALLOCATED }
              let ta := add64 h2.total_allocated b2.size
              (some b.start_addr,
               { h2 with blocks := h2.blocks.set i b2,
                         total_allocated := ta,
                         total_free := sub64 h2.total_free b2.size,
                         peak_allocated :=
                           if h2.peak_allocated < ta then ta else h2.peak_allocated })

/-- `heap_allocate(heap, size)` (mem_block.c:333-436). `vm` is the address a
`vmalloc` extension would return (`none` = reservation failure). On the
extension path the reserved length is `ALIGN_UP(aligned_size, PAGE_SIZE)`,
the new FREE block is inserted at the position dictated by its start
address, `block_count` and `total_free` grow, and the new block itself is
used to satisfy the request (`block = new_block`). -/
def heap_allocate (h : heap_t) (size : Nat) (vm : Option Nat) :
    Option Nat × heap_t :=
  if size = 0 then (none, h)
  else
    let aligned_size := ALIGN_UP size ALIGN_SIZE
    match heap_find_free_block h aligned_size with
    | some i => heap_alloc_finish h i aligned_size
    | none =>
        let extend_size := ALIGN_UP aligned_size PAGE_SIZE
        match vm with
        | none => (none, h)
        | some o =>
            match mem_block_create o extend_size MEM_FREE with
            | none => (none, h)
            | some nb =>
                let (blocks1, i) := insertExtended nb h.blocks
                let h1 := { h with blocks := blocks1,
                                   block_count := add64 h.block_count 1,
                                   total_free := add64 h.total_free extend_size }
                heap_alloc_finish h1 i aligned_size

/-- `mem_block_merge(b1, b2)` where `b2` is the positional successor of `b1`
at chain index `i` (mem_block.c:125-153): both must be FREE and adjacent;
`b1` absorbs `b2`'s size, `b2` is unlinked and destroyed, and the new
successor's `prev` is redirected to `b1`. Returns the chain unchanged (and
merge count 0) when a guard fails. -/
def tryMergeNext (bs : List mem_block_t) (i : Nat) : List mem_block_t × Nat :=
  match bs[i]?, bs[i+1]? with
  | some b, some nxt =>
      if nxt.state = MEM_FREE then
        if b.state = MEM_FREE ∧ mem_block_is_adjacent b nxt then
          (bs.take i ++ { b with size := add64 b.size nxt.size } ::
             setHeadPrev b.start_addr (bs.drop (i + 2)), 1)
        else (bs, 0)
      else (bs, 0)
  | _, _ => (bs, 0)

/-- The `prev` half of `_heap_try_merge_adjacent` (mem_block.c:256-262):
merge the block designated by `block->prev` with the block at index `i`.
On an address-sorted chain of disjoint non-empty blocks, the adjacency
guard of `mem_block_merge` can only pass when the designated block is the
positional predecessor (a self-designating or otherwise stale `prev`
pointer fails it); the final guard restricts the structural splice to that
case, leaving the chain unchanged in the others. -/
def tryMergePrev (bs : List mem_block_t) (i : Nat) : List mem_block_t × Nat :=
  match bs[i]? with
  | none => (bs, 0)
  | some b =>
      match b.prev with
      | none => (bs, 0)
      | some pa =>
          match bs.find? (fun d => d.start_addr == pa) with
          | none => (bs, 0)
          | some d =>
              if d.state = MEM_FREE then
                if b.state = MEM_FREE ∧ mem_block_is_adjacent d b then
                  if 1 ≤ i ∧ bs[i-1]? = some d then
                    (bs.take (i - 1) ++ { d with size := add64 d.size b.size } ::
                       setHeadPrev d.start_addr (bs.drop (i + 1)), 1)
                  else (bs, 0)
                else (bs, 0)
              else (bs, 0)

/-- `_heap_try_merge_adjacent(block)` (mem_block.c:242-265) for the block at
chain index `i`: try the successor first, then the designated predecessor;
returns the new chain and the number of successful merges. -/
def heap_try_merge_adjacent (bs : List mem_block_t) (i : Nat) :
    List mem_block_t × Nat :=
  match bs[i]? with
  | none => (bs, 0)
  | some b =>
      if b.state ≠ MEM_FREE then (bs, 0)
      else
        let (bs1, c1) := tryMergeNext bs i
        let (bs2, c2) := tryMergePrev bs1 i
        (bs2, c1 + c2)

/-- `heap_free(heap, addr)` (mem_block.c:438-473): NULL-address guard, locate
the containing block, reject a block that is not `MEM_ALLOCATED`
(double free), else mark FREE, adjust `total_allocated`/`total_free`, and
merge with adjacent FREE neighbours, reducing `block_count` by the number
of merges. -/
def heap_free (h : heap_t) (addr : Nat) : Int × heap_t :=
  if addr = 0 then (-1, h)
  else
    match heap_find_block h addr with
    | none => (-1, h)
    | some i =>
        match h.blocks[i]? with
        | none => (-1, h)
        | some b =>
            if b.state ≠ MEM_ALLOCATED then (-1, h)
            else
              let blocks1 := h.blocks.set i { b with state := MEM_FREE }
              let (blocks2, merged) := heap_try_merge_adjacent blocks1 i
              (0, { h with blocks := blocks2,
                           total_allocated := sub64 h.total_allocated b.size,
                           total_free := add64 h.total_free b.size,
                           block_count := sub64 h.block_count merged })

/-- `heap_stats(heap, &a, &f, &p)` (mem_block.c:562-578): snapshot of the
three counters. -/
def heap_stats (h : heap_t) : Nat × Nat × Nat :=
  (h.total_allocated, h.total_free, h.peak_allocated)

/-- The traversal of `heap_verify` (mem_block.c:616-661): per-block
integrity (`mem_block_verify`), strictly increasing addresses along the
`prev` pointers (`block->prev->start_addr >= block->start_addr` is an
error; the designated block's `start_addr` is the stored `prev` value), no
two adjacent FREE blocks, and the running sums of allocated/free sizes and
the block count. -/
def heapVerifyScan : List mem_block_t → Nat → Nat → Nat → Option (Nat × Nat × Nat)
  | [], ca, cf, n => some (ca, cf, n)
  | b :: rest, ca, cf, n =>
      if ¬ mem_block_verify_ok b then none
      else if (match b.prev with
               | some pa => decide (b.start_addr ≤ pa)
               | none => false) then none
      else if b.state == MEM_FREE &&
              (match rest with
               | nxt :: _ => nxt.state == MEM_FREE && mem_block_is_adjacent b nxt
               | [] => false) then none
      else
        heapVerifyScan rest
          (if b.state = MEM_FREE then ca else add64 ca b.size)
          (if b.state = MEM_FREE then add64 cf b.size else cf)
          (add64 n 1)

/-- `heap_verify(heap)` (mem_block.c:611-683): `0` when the traversal finds
no violation and the counted block number and sizes match the stored
`block_count`, `total_allocated` and `total_free`; `-1` otherwise. -/
def heap_verify (h : heap_t) : Int :=
  match heapVerifyScan h.blocks 0 0 0 with
  | none => -1
  | some (ca, cf, n) =>
      if n ≠ h.block_count then -1
      else if ca ≠ h.total_allocated ∨ cf ≠ h.total_free then -1
      else 0

/- ===================== Core B: bounded task queue ===================== -/

/-- `Task` (task_queue.h): the function pointer and argument are opaque to
the queue; the model keeps an identifying tag and whether a cleanup
function was supplied (`cleanup != NULL`). -/
structure Task where
  id : Nat
  hasCleanup : Bool
deriving DecidableEq, Repr, Inhabited

/-- `task_queue_t` (task_queue.h). The linked list `front`/`back` is the
`queue` list (front first); the mutex and the four condition variables
serialise the critical sections and are not part of the state. The
`size_t` counters are modelled as `Nat`: every decrement in the source is
reached only under a guard that makes it non-negative, and the increments
could wrap only after `2 ^ 64` operations on one queue, which no
interleaving of the claims reaches. -/
structure task_queue_t where
  queue : List Task
  count : Nat
  max_count : Nat
  total_processed : Nat
  active_tasks : Nat
  total_enqueued : Nat
  total_dequeued : Nat
deriving DecidableEq, Repr, Inhabited

/-- `task_queue_create(max_size)` (part_000:408-471): empty queue, zeroed
counters and statistics. -/
def task_queue_create (max_size : Nat) : task_queue_t :=
  { queue := [], count := 0, max_count := max_size, total_processed := 0,
    active_tasks := 0, total_enqueued := 0, total_dequeued := 0 }

/-- The critical section of `task_queue_push` (part_000:521-563), entered
once the backpressure wait `while (max_count > 0 && count >= max_count)`
has passed: append the task at the back, `count++`,
`stats.total_enqueued++` (and signal `not_empty`). Returns `none` while
the producer is still blocked on `not_full`. -/
def task_queue_push (q : task_queue_t) (t : Task) : Option task_queue_t :=
  if 0 < q.max_count ∧ q.max_count ≤ q.count then none
  else
    some { q with queue := q.queue ++ [t], count := q.count + 1,
                  total_enqueued := q.total_enqueued + 1 }

/-- The dequeue critical section of `task_queue_pop_and_execute`
(part_000:672-714), entered once the wait
`while (count == 0 && !*should_shutdown)` has passed and the
shutdown-with-empty-queue early return did not trigger (so `count != 0`):
detach the head, `count--`, `stats.total_dequeued++`, `total_processed++`,
`active_tasks++` (and signal `not_full`). The detached task is returned;
its function and cleanup run outside the lock. `none` when the section is
not enabled (empty queue: the worker is still waiting, or the
`task == NULL` early return with no state change). -/
def task_queue_deq (q : task_queue_t) : Option (task_queue_t × Task) :=
  if q.count = 0 then none
  else
    match q.queue with
    | [] => none
    | t :: rest =>
        some ({ q with queue := rest, count := q.count - 1,
                       total_dequeued := q.total_dequeued + 1,
                       total_processed := q.total_processed + 1,
                       active_tasks := q.active_tasks + 1 }, t)

/-- The completion critical section of `task_queue_pop_and_execute`
(part_000:726-734), run by a worker after the task function and cleanup
finished: `active_tasks--` (and broadcast `all_done` when
`count == 0 && active_tasks == 0`). Only a worker holding a dequeued task
executes it, so it is enabled exactly when some task is active. -/
def task_queue_finish (q : task_queue_t) : Option task_queue_t :=
  if q.active_tasks = 0 then none
  else some { q with active_tasks := q.active_tasks - 1 }

/-- The dequeue critical section of `task_queue_pop` (part_000:566-622):
as `task_queue_deq` but without touching `active_tasks` (the ownership of
the task passes to the caller). -/
def task_queue_pop (q : task_queue_t) : Option (task_queue_t × Task) :=
  if q.count = 0 then none
  else
    match q.queue with
    | [] => none
    | t :: rest =>
        some ({ q with queue := rest, count := q.count - 1,
                       total_dequeued := q.total_dequeued + 1,
                       total_processed := q.total_processed + 1 }, t)

/-- One atomic critical section of the queue, as scheduled by an
interleaving of producers and workers. The shutdown-signal branches of the
two pop operations change no queue state and are therefore invisible to
the state semantics. -/
inductive QEvent where
  | push (t : Task)
  | deq
  | finish
  | popTask
deriving DecidableEq, Repr

/-- Apply one critical section; `none` when the section is not enabled in
state `q` (the scheduled thread is still blocked, or the section is a
no-op early return). -/
def applyQEvent (q : task_queue_t) : QEvent → Option task_queue_t
  | .push t => task_queue_push q t
  | .deq => (task_queue_deq q).map (·.1)
  | .finish => task_queue_finish q
  | .popTask => (task_queue_pop q).map (·.1)

/-- Queue states reachable from `task_queue_create` by any interleaving of
the queue's critical sections. -/
inductive QReach : task_queue_t → Prop where
  | init (m : Nat) : QReach (task_queue_create m)
  | step {q q' : task_queue_t} (e : QEvent) :
      QReach q → applyQEvent q e = some q' → QReach q'

/-- `task_queue_wait_empty(queue)` (part_000:625-645): the caller sleeps on
`all_done` while `count > 0 || active_tasks > 0`, re-testing the predicate
at every wakeup; each element of `evs` is one critical section another
thread runs before the next wakeup (a section that is not enabled leaves
the state unchanged). Returns the queue state at the moment the wait loop
exits and the call returns; `none` when the events are exhausted with the
predicate still true (the caller is still blocked). -/
def task_queue_wait_empty : List QEvent → task_queue_t → Option task_queue_t
  | [], q => if 0 < q.count ∨ 0 < q.active_tasks then none else some q
  | e :: rest, q =>
      if 0 < q.count ∨ 0 < q.active_tasks then
        task_queue_wait_empty rest ((applyQEvent q e).getD q)
      else some q

/-- `thread_pool_t` (thread_pool.h), restricted to the owned queue; worker
bookkeeping and the pool state machine do not affect the queue claims. -/
structure thread_pool_t where
  task_queue : task_queue_t
deriving DecidableEq, Repr

/-- `thread_pool_wait_all(pool)` (part_000:1169-1177): delegates to
`task_queue_wait_empty` on the owned queue. -/
def thread_pool_wait_all (evs : List QEvent) (pool : thread_pool_t) :
    Option task_queue_t :=
  task_queue_wait_empty evs pool.task_queue

/-- An observable action of the task lifecycle: the task's function ran, or
its cleanup ran (`_task_destroy`, part_000:350-367, calls the cleanup
exactly when one was supplied, then frees the record). -/
inductive LogItem where
  | run (id : Nat)
  | cleanup (id : Nat)
deriving DecidableEq, Repr

/-- What `task_queue_pop_and_execute` does with a detached task outside the
lock (part_000:716-723): run `task->function(task->arg)`, then
`_task_destroy(task)` — the cleanup (when supplied) and the free. -/
def deqEmit (t : Task) : List LogItem :=
  .run t.id :: (if t.hasCleanup then [.cleanup t.id] else [])

/-- Run an interleaving of queue critical sections, recording the lifecycle
actions of every task consumed by `task_queue_pop_and_execute` (a task
taken by `task_queue_pop` passes to the caller and the queue performs no
lifecycle action on it). `none` when a scheduled section is not enabled
(the trace is not a real interleaving). -/
def runTrace : task_queue_t → List QEvent → Option (task_queue_t × List LogItem)
  | q, [] => some (q, [])
  | q, QEvent.deq :: rest =>
      match task_queue_deq q with
      | none => none
      | some (q2, t) =>
          match runTrace q2 rest with
          | none => none
          | some (qf, log) => some (qf, deqEmit t ++ log)
  | q, QEvent.push t :: rest =>
      match task_queue_push q t with
      | none => none
      | some q2 => runTrace q2 rest
  | q, QEvent.finish :: rest =>
      match task_queue_finish q with
      | none => none
      | some q2 => runTrace q2 rest
  | q, QEvent.popTask :: rest =>
      match task_queue_pop q with
      | none => none
      | some p => runTrace p.1 rest

/-- The drain loop of `task_queue_destroy` (part_000:483-497): every task
still in the queue is destroyed with `_task_destroy`, which runs its
cleanup exactly when one was supplied (the task functions do not run). -/
def task_queue_destroy_log (q : task_queue_t) : List LogItem :=
  q.queue.filterMap fun t => if t.hasCleanup then some (.cleanup t.id) else none

/-- The tasks submitted (pushed) along a trace, in order. -/
def pushedTasks (evs : List QEvent) : List Task :=
  evs.filterMap fun e => match e with | .push t => some t | _ => none

/- ===================== Queue lemmas ===================== -/

theorem task_queue_push_eq {q q' : task_queue_t} {t : Task}
    (h : task_queue_push q t = some q') :
    ¬ (0 < q.max_count ∧ q.max_count ≤ q.count) ∧
    q' = { q with queue := q.queue ++ [t], count := q.count + 1,
                  total_enqueued := q.total_enqueued + 1 } := by
  by_cases hc : 0 < q.max_count ∧ q.max_count ≤ q.count
  · simp [task_queue_push, hc] at h
  · simp [task_queue_push, hc] at h
    exact ⟨hc, h.symm⟩

theorem task_queue_deq_eq {q : task_queue_t} {p : task_queue_t × Task}
    (h : task_queue_deq q = some p) :
    q.count ≠ 0 ∧ q.queue = p.2 :: p.1.queue ∧
    p.1 = { q with queue := p.1.queue, count := q.count - 1,
                   total_dequeued := q.total_dequeued + 1,
                   total_processed := q.total_processed + 1,
                   active_tasks := q.active_tasks + 1 } := by
  by_cases hc : q.count = 0
  · simp [task_queue_deq, hc] at h
  · cases hq : q.queue with
    | nil => simp [task_queue_deq, hc, hq] at h
    | cons t rest =>
      simp [task_queue_deq, hc, hq] at h
      refine ⟨hc, ?_, ?_⟩ <;> rw [← h]

theorem task_queue_pop_eq {q : task_queue_t} {p : task_queue_t × Task}
    (h : task_queue_pop q = some p) :
    q.count ≠ 0 ∧ q.queue = p.2 :: p.1.queue ∧
    p.1 = { q with queue := p.1.queue, count := q.count - 1,
                   total_dequeued := q.total_dequeued + 1,
                   total_processed := q.total_processed + 1 } := by
  by_cases hc : q.count = 0
  · simp [task_queue_pop, hc] at h
  · cases hq : q.queue with
    | nil => simp [task_queue_pop, hc, hq] at h
    | cons t rest =>
      simp [task_queue_pop, hc, hq] at h
      refine ⟨hc, ?_, ?_⟩ <;> rw [← h]

theorem task_queue_finish_eq {q q' : task_queue_t}
    (h : task_queue_finish q = some q') :
    q.active_tasks ≠ 0 ∧ q' = { q with active_tasks := q.active_tasks - 1 } := by
  by_cases hc : q.active_tasks = 0
  · simp [task_queue_finish, hc] at h
  · simp [task_queue_finish, hc] at h
    exact ⟨hc, h.symm⟩

/- ===================== C10 ===================== -/

/-- C10: after every sequence of queue operations, `total_processed` equals
`total_dequeued`: both `task_queue_pop` and `task_queue_pop_and_execute`
increment the two counters together at dequeue time, so `total_processed`
counts tasks handed to a worker, not tasks whose execution completed. -/
theorem processed_counts_handoffs {q : task_queue_t} (h : QReach q) :
    q.total_processed = q.total_dequeued := by
  induction h with
  | init m => rfl
  | @step q q' e hr happ ih =>
    cases e with
    | push t =>
      obtain ⟨-, rfl⟩ := task_queue_push_eq happ
      simpa using ih
    | deq =>
      simp only [applyQEvent] at happ
      cases hd : task_queue_deq q with
      | none => rw [hd] at happ; cases happ
      | some p =>
        rw [hd] at happ
        obtain ⟨-, -, hp⟩ := task_queue_deq_eq hd
        injection happ with happ2
        subst happ2
        show p.1.total_processed = p.1.total_dequeued
        rw [hp]
        simpa using ih
    | finish =>
      obtain ⟨-, rfl⟩ := task_queue_finish_eq happ
      simpa using ih
    | popTask =>
      simp only [applyQEvent] at happ
      cases hd : task_queue_pop q with
      | none => rw [hd] at happ; cases happ
      | some p =>
        rw [hd] at happ
        obtain ⟨-, -, hp⟩ := task_queue_pop_eq hd
        injection happ with happ2
        subst happ2
        show p.1.total_processed = p.1.total_dequeued
        rw [hp]
        simpa using ih

/-- Witness for C10 at a concrete reachable state: one push followed by the
dequeue section of `pop_and_execute`. -/
theorem processed_counts_handoffs_witness :
    ({ queue := [], count := 0, max_count := 0, total_processed := 1,
       active_tasks := 1, total_enqueued := 1,
       total_dequeued := 1 } : task_queue_t).total_processed =
    ({ queue := [], count := 0, max_count := 0, total_processed := 1,
       active_tasks := 1, total_enqueued := 1,
       total_dequeued := 1 } : task_queue_t).total_dequeued :=
  have h1 : QReach ({ queue := [⟨0, false⟩], count := 1, max_count := 0,
                      total_processed := 0, active_tasks := 0,
                      total_enqueued := 1, total_dequeued := 0 } : task_queue_t) :=
    QReach.step (.push ⟨0, false⟩) (QReach.init 0) (by decide)
  have h2 : QReach ({ queue := [], count := 0, max_count := 0,
                      total_processed := 1, active_tasks := 1,
                      total_enqueued := 1, total_dequeued := 1 } : task_queue_t) :=
    QReach.step .deq h1 (by decide)
  processed_counts_handoffs h2

/- ===================== C6 ===================== -/

/-- C6: for a queue created with `max_count > 0`, `count` never exceeds
`max_count` at any reachable state: `task_queue_push` appends only when
`count < max_count` (otherwise the producer stays blocked on `not_full`),
and every other critical section leaves `count` unchanged or decrements
it. -/
theorem count_le_max_count {q : task_queue_t} (h : QReach q)
    (hm : 0 < q.max_count) : q.count ≤ q.max_count := by
  induction h with
  | init m => exact Nat.zero_le _
  | @step q q' e hr happ ih =>
    cases e with
    | push t =>
      obtain ⟨hen, rfl⟩ := task_queue_push_eq happ
      simp only at hm ⊢
      have := ih hm
      omega
    | deq =>
      simp only [applyQEvent] at happ
      cases hd : task_queue_deq q with
      | none => rw [hd] at happ; cases happ
      | some p =>
        rw [hd] at happ
        obtain ⟨-, -, hp⟩ := task_queue_deq_eq hd
        injection happ with happ2
        subst happ2
        have h1 : p.1.count = q.count - 1 := by rw [hp]
        have h2 : p.1.max_count = q.max_count := by rw [hp]
        have hm2 : 0 < p.1.max_count := hm
        rw [h2] at hm2
        have := ih hm2
        show p.1.count ≤ p.1.max_count
        omega
    | finish =>
      obtain ⟨-, rfl⟩ := task_queue_finish_eq happ
      simp only at hm ⊢
      exact ih hm
    | popTask =>
      simp only [applyQEvent] at happ
      cases hd : task_queue_pop q with
      | none => rw [hd] at happ; cases happ
      | some p =>
        rw [hd] at happ
        obtain ⟨-, -, hp⟩ := task_queue_pop_eq hd
        injection happ with happ2
        subst happ2
        have h1 : p.1.count = q.count - 1 := by rw [hp]
        have h2 : p.1.max_count = q.max_count := by rw [hp]
        have hm2 : 0 < p.1.max_count := hm
        rw [h2] at hm2
        have := ih hm2
        show p.1.count ≤ p.1.max_count
        omega

/-- Witness for C6: a bounded queue (`max_count = 2`) that accepted one
push. -/
theorem count_le_max_count_witness :
    ({ queue := [⟨7, true⟩], count := 1, max_count := 2, total_processed := 0,
       active_tasks := 0, total_enqueued := 1,
       total_dequeued := 0 } : task_queue_t).count ≤
    ({ queue := [⟨7, true⟩], count := 1, max_count := 2, total_processed := 0,
       active_tasks := 0, total_enqueued := 1,
       total_dequeued := 0 } : task_queue_t).max_count :=
  have h1 : QReach ({ queue := [⟨7, true⟩], count := 1, max_count := 2,
                      total_processed := 0, active_tasks := 0,
                      total_enqueued := 1, total_dequeued := 0 } : task_queue_t) :=
    QReach.step (.push ⟨7, true⟩) (QReach.init 2) (by decide)
  count_le_max_count h1 (by decide)

/- ===================== C2 ===================== -/

/-- C2 counterexample: the claimed law
`total_enqueued = total_dequeued + count + active_tasks` fails at the
reachable state produced by one push followed by the dequeue section of
`pop_and_execute` (the dequeued task not yet finished): there
`total_enqueued = 1` but `total_dequeued + count + active_tasks = 2`,
because a dequeued-but-unfinished task is counted both in `total_dequeued`
and in `active_tasks`. -/
theorem conservation_claim_false_midtask :
    QReach ({ queue := [], count := 0, max_count := 0, total_processed := 1,
              active_tasks := 1, total_enqueued := 1,
              total_dequeued := 1 } : task_queue_t) ∧
    ¬ (({ queue := [], count := 0, max_count := 0, total_processed := 1,
          active_tasks := 1, total_enqueued := 1,
          total_dequeued := 1 } : task_queue_t).total_enqueued =
       ({ queue := [], count := 0, max_count := 0, total_processed := 1,
          active_tasks := 1, total_enqueued := 1,
          total_dequeued := 1 } : task_queue_t).total_dequeued +
       ({ queue := [], count := 0, max_count := 0, total_processed := 1,
          active_tasks := 1, total_enqueued := 1,
          total_dequeued := 1 } : task_queue_t).count +
       ({ queue := [], count := 0, max_count := 0, total_processed := 1,
          active_tasks := 1, total_enqueued := 1,
          total_dequeued := 1 } : task_queue_t).active_tasks) :=
  have h1 : QReach ({ queue := [⟨3, false⟩], count := 1, max_count := 0,
                      total_processed := 0, active_tasks := 0,
                      total_enqueued := 1, total_dequeued := 0 } : task_queue_t) :=
    QReach.step (.push ⟨3, false⟩) (QReach.init 0) (by decide)
  ⟨QReach.step .deq h1 (by decide), by decide⟩

/-- C2 (amended): at every state reachable by any interleaving of submit
and pop operations, `total_enqueued = total_dequeued + count` holds, with
`active_tasks ≤ total_dequeued` (a dequeued task is already counted in
`total_dequeued` while it is active); equivalently the conservation law
holds with completed dequeues in place of `total_dequeued`:
`total_enqueued = (total_dequeued - active_tasks) + count + active_tasks`. -/
theorem queue_conservation_law {q : task_queue_t} (h : QReach q) :
    q.total_enqueued = q.total_dequeued + q.count ∧
    q.active_tasks ≤ q.total_dequeued ∧
    q.total_enqueued =
      (q.total_dequeued - q.active_tasks) + q.count + q.active_tasks := by
  have main : q.total_enqueued = q.total_dequeued + q.count ∧
      q.active_tasks ≤ q.total_dequeued := by
    induction h with
    | init m => exact ⟨rfl, Nat.le_refl 0⟩
    | @step q q' e hr happ ih =>
      cases e with
      | push t =>
        obtain ⟨-, rfl⟩ := task_queue_push_eq happ
        simp only
        omega
      | deq =>
        simp only [applyQEvent] at happ
        cases hd : task_queue_deq q with
        | none => rw [hd] at happ; cases happ
        | some p =>
          rw [hd] at happ
          obtain ⟨hc, -, hp⟩ := task_queue_deq_eq hd
          injection happ with happ2
          subst happ2
          have h1 : p.1.count = q.count - 1 := by rw [hp]
          have h2 : p.1.total_dequeued = q.total_dequeued + 1 := by rw [hp]
          have h3 : p.1.total_enqueued = q.total_enqueued := by rw [hp]
          have h4 : p.1.active_tasks = q.active_tasks + 1 := by rw [hp]
          show p.1.total_enqueued = p.1.total_dequeued + p.1.count ∧
               p.1.active_tasks ≤ p.1.total_dequeued
          omega
      | finish =>
        obtain ⟨ha, rfl⟩ := task_queue_finish_eq happ
        simp only
        omega
      | popTask =>
        simp only [applyQEvent] at happ
        cases hd : task_queue_pop q with
        | none => rw [hd] at happ; cases happ
        | some p =>
          rw [hd] at happ
          obtain ⟨hc, -, hp⟩ := task_queue_pop_eq hd
          injection happ with happ2
          subst happ2
          have h1 : p.1.count = q.count - 1 := by rw [hp]
          have h2 : p.1.total_dequeued = q.total_dequeued + 1 := by rw [hp]
          have h3 : p.1.total_enqueued = q.total_enqueued := by rw [hp]
          have h4 : p.1.active_tasks = q.active_tasks := by rw [hp]
          show p.1.total_enqueued = p.1.total_dequeued + p.1.count ∧
               p.1.active_tasks ≤ p.1.total_dequeued
          omega
  exact ⟨main.1, main.2, by omega⟩

/-- Witness for C2 (amended) at the same kind of mid-execution state the
counterexample uses. -/
theorem queue_conservation_law_witness :
    ({ queue := [], count := 0, max_count := 0, total_processed := 1,
       active_tasks := 1, total_enqueued := 1,
       total_dequeued := 1 } : task_queue_t).total_enqueued =
      ({ queue := [], count := 0, max_count := 0, total_processed := 1,
         active_tasks := 1, total_enqueued := 1,
         total_dequeued := 1 } : task_queue_t).total_dequeued +
      ({ queue := [], count := 0, max_count := 0, total_processed := 1,
         active_tasks := 1, total_enqueued := 1,
         total_dequeued := 1 } : task_queue_t).count :=
  have h1 : QReach ({ queue := [⟨9, true⟩], count := 1, max_count := 0,
                      total_processed := 0, active_tasks := 0,
                      total_enqueued := 1, total_dequeued := 0 } : task_queue_t) :=
    QReach.step (.push ⟨9, true⟩) (QReach.init 0) (by decide)
  have h2 : QReach ({ queue := [], count := 0, max_count := 0,
                      total_processed := 1, active_tasks := 1,
                      total_enqueued := 1, total_dequeued := 1 } : task_queue_t) :=
    QReach.step .deq h1 (by decide)
  (queue_conservation_law h2).1

/- ===================== C3 ===================== -/

/-- C3: `task_queue_wait_empty` (and `thread_pool_wait_all`, which
delegates to it) returns only in a state where `count == 0` and
`active_tasks == 0` both hold: the caller re-tests the predicate
`count > 0 || active_tasks > 0` at every wakeup and keeps waiting on
`all_done` while it is true, for any interleaving `evs` of the other
threads' critical sections. -/
theorem wait_empty_returns_quiescent (evs : List QEvent) (q : task_queue_t)
    (pool : thread_pool_t) (r : task_queue_t)
    (h : task_queue_wait_empty evs q = some r ∨
         thread_pool_wait_all evs pool = some r) :
    r.count = 0 ∧ r.active_tasks = 0 := by
  have main : ∀ (evs : List QEvent) (q r : task_queue_t),
      task_queue_wait_empty evs q = some r →
      r.count = 0 ∧ r.active_tasks = 0 := by
    intro evs
    induction evs with
    | nil =>
      intro q r h
      by_cases hp : 0 < q.count ∨ 0 < q.active_tasks
      · simp [task_queue_wait_empty, hp] at h
      · simp [task_queue_wait_empty, hp] at h
        subst h
        omega
    | cons e rest ih =>
      intro q r h
      by_cases hp : 0 < q.count ∨ 0 < q.active_tasks
      · simp only [task_queue_wait_empty, if_pos hp] at h
        exact ih _ _ h
      · simp only [task_queue_wait_empty, if_neg hp] at h
        injection h with h2
        subst h2
        omega
  cases h with
  | inl h => exact main evs q r h
  | inr h => exact main evs pool.task_queue r h

/-- Witness for C3: a waiter on an already-quiescent queue returns at once,
in a quiescent state; exercised both through the queue and through the
pool facade. -/
theorem wait_empty_returns_quiescent_witness :
    (task_queue_create 4).count = 0 ∧ (task_queue_create 4).active_tasks = 0 :=
  wait_empty_returns_quiescent [] (task_queue_create 4)
    ⟨task_queue_create 4⟩ (task_queue_create 4) (Or.inl (by decide))

/- ===================== C1 ===================== -/

/-- C1 (a bug in the code): the block-list invariants do NOT survive every
`heap_allocate` that extends the heap. The ordered insertion in
`heap_allocate` (mem_block.c:390-396) executes
`prev_block->next = new_block` BEFORE testing `prev_block->next != NULL`,
so the guarded statement `prev_block->next->prev = new_block` always runs
and sets `new_block->prev = new_block` — the inserted block's `prev`
pointer designates the block itself instead of `prev_block`, contradicting
the code's own `heap_verify` (mem_block.c:630-634), which then reports
"blocks not in order" and returns -1.

Concrete trace: `heap_init(4096)` with the initial reservation at
`0x1000`; `heap_allocate(4096)` consumes the whole free block (verify
still ok); `heap_allocate(8)` finds no free block and extends the heap
with a 4096-byte reservation at `0x100000`, inserted after the existing
block — after this allocate, which succeeds and returns `0x100000`,
`heap_verify` returns -1. -/
theorem heap_extension_insert_breaks_verify :
    heap_verify ((heap_init 4096 (some 4096)).getD default) = 0 ∧
    (heap_allocate ((heap_init 4096 (some 4096)).getD default) 4096 none).1
      = some 4096 ∧
    heap_verify
      (heap_allocate ((heap_init 4096 (some 4096)).getD default) 4096 none).2
      = 0 ∧
    (heap_allocate
      (heap_allocate ((heap_init 4096 (some 4096)).getD default) 4096 none).2
      8 (some 1048576)).1 = some 1048576 ∧
    ((heap_allocate
      (heap_allocate ((heap_init 4096 (some 4096)).getD default) 4096 none).2
      8 (some 1048576)).2.blocks.map mem_block_t.prev)
      = [none, some 1048576, some 1048576] ∧
    heap_verify
      (heap_allocate
        (heap_allocate ((heap_init 4096 (some 4096)).getD default) 4096 none).2
        8 (some 1048576)).2 = -1 := by
  decide

/- ===================== C9 lemmas ===================== -/

/-- Along a popTask-free interleaving, the tasks pushed so far are exactly
the tasks dequeued by `pop_and_execute` followed by the tasks still
queued, and the recorded log is the concatenation of the per-task
lifecycle actions of the dequeued ones, in dequeue order. -/
theorem runTrace_decomp :
    ∀ (evs : List QEvent) (q0 qf : task_queue_t) (log : List LogItem),
      QEvent.popTask ∉ evs →
      runTrace q0 evs = some (qf, log) →
      ∃ deqd : List Task,
        q0.queue ++ pushedTasks evs = deqd ++ qf.queue ∧
        log = deqd.flatMap deqEmit := by
  intro evs
  induction evs with
  | nil =>
    intro q0 qf log hnp h
    simp only [runTrace, Option.some.injEq, Prod.mk.injEq] at h
    obtain ⟨rfl, rfl⟩ := h
    exact ⟨[], by simp [pushedTasks], by simp⟩
  | cons e rest ih =>
    intro q0 qf log hnp h
    have hnp2 : QEvent.popTask ∉ rest := fun hm => hnp (List.mem_cons_of_mem _ hm)
    cases e with
    | push t =>
      simp only [runTrace] at h
      cases hp : task_queue_push q0 t with
      | none => rw [hp] at h; cases h
      | some q2 =>
        rw [hp] at h
        obtain ⟨-, rfl⟩ := task_queue_push_eq hp
        obtain ⟨deqd, hsplit, hlog⟩ := ih _ _ _ hnp2 h
        refine ⟨deqd, ?_, hlog⟩
        have hq2 : pushedTasks (QEvent.push t :: rest) = t :: pushedTasks rest := by
          simp [pushedTasks]
        rw [hq2]
        rw [show q0.queue ++ t :: pushedTasks rest
              = (q0.queue ++ [t]) ++ pushedTasks rest by simp]
        exact hsplit
    | deq =>
      simp only [runTrace] at h
      cases hd : task_queue_deq q0 with
      | none => rw [hd] at h; cases h
      | some p =>
        obtain ⟨q2, t⟩ := p
        rw [hd] at h
        dsimp only at h
        cases hr : runTrace q2 rest with
        | none => rw [hr] at h; cases h
        | some res =>
          obtain ⟨qf2, log2⟩ := res
          rw [hr] at h
          dsimp only at h
          simp only [Option.some.injEq, Prod.mk.injEq] at h
          obtain ⟨rfl, rfl⟩ := h
          obtain ⟨hc, hqueue, hq2⟩ := task_queue_deq_eq hd
          obtain ⟨deqd, hsplit, hlog⟩ := ih _ _ _ hnp2 hr
          refine ⟨t :: deqd, ?_, ?_⟩
          · have hpt : pushedTasks (QEvent.deq :: rest) = pushedTasks rest := by
              simp [pushedTasks]
            rw [hpt]
            have hstep : q0.queue ++ pushedTasks rest
                = t :: (q2.queue ++ pushedTasks rest) := by
              rw [show (q2 : task_queue_t).queue = ((q2, t).1 : task_queue_t).queue
                    from rfl] at hqueue ⊢
              rw [hqueue]
              simp
            rw [hstep, hsplit]
            simp
          · rw [hlog]
            simp [List.flatMap_cons]
    | finish =>
      simp only [runTrace] at h
      cases hp : task_queue_finish q0 with
      | none => rw [hp] at h; cases h
      | some q2 =>
        rw [hp] at h
        obtain ⟨-, rfl⟩ := task_queue_finish_eq hp
        obtain ⟨deqd, hsplit, hlog⟩ := ih _ _ _ hnp2 h
        refine ⟨deqd, ?_, hlog⟩
        have hpt : pushedTasks (QEvent.finish :: rest) = pushedTasks rest := by
          simp [pushedTasks]
        rw [hpt]
        exact hsplit
    | popTask => exact absurd (List.mem_cons_self _ _) hnp

theorem count_cleanup_deqEmit (t : Task) (i : Nat) :
    (deqEmit t).count (LogItem.cleanup i) =
      if t.id == i && t.hasCleanup then 1 else 0 := by
  cases hc : t.hasCleanup <;> by_cases hid : t.id = i <;>
    simp [deqEmit, hc, hid, List.count_cons, List.count_nil]

theorem count_run_deqEmit (t : Task) (i : Nat) :
    (deqEmit t).count (LogItem.run i) = if t.id == i then 1 else 0 := by
  cases hc : t.hasCleanup <;> by_cases hid : t.id = i <;>
    simp [deqEmit, hc, hid, List.count_cons, List.count_nil]

theorem count_cleanup_flatMap (deqd : List Task) (i : Nat) :
    (deqd.flatMap deqEmit).count (LogItem.cleanup i) =
      deqd.countP (fun u => u.id == i && u.hasCleanup) := by
  induction deqd with
  | nil => rfl
  | cons t rest ih =>
    rw [List.flatMap_cons, List.count_append, ih, List.countP_cons,
        count_cleanup_deqEmit]
    omega

theorem count_run_flatMap (deqd : List Task) (i : Nat) :
    (deqd.flatMap deqEmit).count (LogItem.run i) =
      deqd.countP (fun u => u.id == i) := by
  induction deqd with
  | nil => rfl
  | cons t rest ih =>
    rw [List.flatMap_cons, List.count_append, ih, List.countP_cons,
        count_run_deqEmit]
    omega

theorem count_cleanup_destroy (l : List Task) (i : Nat) :
    ((l.filterMap fun t =>
        if t.hasCleanup then some (LogItem.cleanup t.id) else none).count
      (LogItem.cleanup i)) =
      l.countP (fun u => u.id == i && u.hasCleanup) := by
  induction l with
  | nil => rfl
  | cons t rest ih =>
    rw [List.filterMap_cons, List.countP_cons]
    cases hc : t.hasCleanup <;> by_cases hid : t.id = i <;>
      simp [hc, hid, List.count_cons, ih]

theorem count_run_destroy (l : List Task) (i : Nat) :
    ((l.filterMap fun t =>
        if t.hasCleanup then some (LogItem.cleanup t.id) else none).count
      (LogItem.run i)) = 0 := by
  induction l with
  | nil => rfl
  | cons t rest ih =>
    rw [List.filterMap_cons]
    cases hc : t.hasCleanup <;> simp [hc, List.count_cons, ih]

/-- Counting with a predicate that only the distinguished element of a
duplicate-free list satisfies. -/
theorem countP_eq_of_unique (l : List Task) (t : Task) (p : Task → Bool)
    (hnd : l.Nodup) (hmem : t ∈ l) (huniq : ∀ u ∈ l, p u = true → u = t) :
    l.countP p = if p t then 1 else 0 := by
  induction l with
  | nil => cases hmem
  | cons u rest ih =>
    rw [List.countP_cons]
    rcases List.mem_cons.mp hmem with rfl | hmem2
    · have hz : rest.countP p = 0 := by
        rw [List.countP_eq_zero]
        intro a ha hpa
        have ha2 : a = t := huniq a (List.mem_cons_of_mem _ ha) hpa
        subst ha2
        exact (List.nodup_cons.mp hnd).1 ha
      rw [hz]
      omega
    · have hu : p u = false := by
        cases hpu : p u with
        | false => rfl
        | true =>
            have he : u = t := huniq u (List.mem_cons_self _ _) hpu
            subst he
            exact absurd hmem2 (List.nodup_cons.mp hnd).1
      rw [ih (List.nodup_cons.mp hnd).2 hmem2
            (fun a ha hpa => huniq a (List.mem_cons_of_mem _ ha) hpa), hu]
      simp

/- ===================== C9 ===================== -/

/-- C9: along any interleaving of submit, `pop_and_execute` sections and
task completions from a fresh queue, with distinct submitted tasks,
every submitted task's cleanup (when supplied) runs exactly once — by the
`pop_and_execute` that dequeued it, or by `task_queue_destroy` for a task
still queued at destroy time — and never twice; a task's function runs
exactly once if it was dequeued and not at all if it was still queued at
destroy time. -/
theorem cleanup_exactly_once (m : Nat) (evs : List QEvent)
    (qf : task_queue_t) (log : List LogItem) (t : Task)
    (hnp : QEvent.popTask ∉ evs)
    (hrun : runTrace (task_queue_create m) evs = some (qf, log))
    (hnodup : ((pushedTasks evs).map Task.id).Nodup)
    (hmem : t ∈ pushedTasks evs) :
    (log ++ task_queue_destroy_log qf).count (LogItem.cleanup t.id) =
      (if t.hasCleanup then 1 else 0) ∧
    (log ++ task_queue_destroy_log qf).count (LogItem.run t.id) =
      (if t ∈ qf.queue then 0 else 1) := by
  obtain ⟨deqd, hsplit, rfl⟩ := runTrace_decomp evs _ qf log hnp hrun
  have hsplit2 : pushedTasks evs = deqd ++ qf.queue := by
    simpa [task_queue_create] using hsplit
  have hnd : (pushedTasks evs).Nodup := List.Nodup.of_map _ hnodup
  have hinj := List.inj_on_of_nodup_map hnodup
  constructor
  · rw [List.count_append, count_cleanup_flatMap, task_queue_destroy_log,
        count_cleanup_destroy]
    have hcnt := countP_eq_of_unique (pushedTasks evs) t
        (fun u => u.id == t.id && u.hasCleanup) hnd hmem
        (by
          intro u hu hpu
          simp only [Bool.and_eq_true, beq_iff_eq] at hpu
          exact hinj hu hmem hpu.1)
    rw [hsplit2, List.countP_append] at hcnt
    rw [hcnt]
    cases hc : t.hasCleanup <;> simp [hc]
  · rw [List.count_append, count_run_flatMap, task_queue_destroy_log,
        count_run_destroy]
    have hall := countP_eq_of_unique (pushedTasks evs) t
        (fun u => u.id == t.id) hnd hmem
        (by
          intro u hu hpu
          simp only [beq_iff_eq] at hpu
          exact hinj hu hmem hpu)
    rw [hsplit2, List.countP_append] at hall
    simp only [beq_self_eq_true, if_pos] at hall
    by_cases hq : t ∈ qf.queue
    · have hpos : 0 < qf.queue.countP (fun u => u.id == t.id) := by
        rw [List.countP_pos_iff]
        exact ⟨t, hq, by simp⟩
      simp only [hq, if_true]
      omega
    · have hz : qf.queue.countP (fun u => u.id == t.id) = 0 := by
        rw [List.countP_eq_zero]
        intro a ha hpa
        have ha2 : a ∈ pushedTasks evs := by
          rw [hsplit2]
          exact List.mem_append.mpr (Or.inr ha)
        have ha3 : a = t := hinj ha2 hmem (by simpa using hpa)
        subst ha3
        exact hq ha
      simp only [hq, if_false]
      omega

/-- Witness for C9: two submissions (the first with a cleanup, the second
without) and one `pop_and_execute`; the first task's cleanup and function
each ran once, the second task is still queued. -/
theorem cleanup_exactly_once_witness :
    (([LogItem.run 1, LogItem.cleanup 1] ++
        task_queue_destroy_log
          { queue := [⟨2, false⟩], count := 1, max_count := 0,
            total_processed := 1, active_tasks := 1, total_enqueued := 2,
            total_dequeued := 1 }).count (LogItem.cleanup 1) = 1) ∧
    (([LogItem.run 1, LogItem.cleanup 1] ++
        task_queue_destroy_log
          { queue := [⟨2, false⟩], count := 1, max_count := 0,
            total_processed := 1, active_tasks := 1, total_enqueued := 2,
            total_dequeued := 1 }).count (LogItem.run 1) = 1) := by
  have h := cleanup_exactly_once 0
      [QEvent.push ⟨1, true⟩, QEvent.push ⟨2, false⟩, QEvent.deq]
      { queue := [⟨2, false⟩], count := 1, max_count := 0,
        total_processed := 1, active_tasks := 1, total_enqueued := 2,
        total_dequeued := 1 }
      [LogItem.run 1, LogItem.cleanup 1] ⟨1, true⟩
      (by decide) (by decide) (by decide) (by decide)
  exact ⟨h.1, h.2⟩

/- ===================== Heap lemmas ===================== -/

/-- The shape every honestly built block chain has: address-sorted with
disjoint ranges, non-null non-empty blocks, and ranges that fit in the
64-bit address space. -/
def chainOk (bs : List mem_block_t) : Prop :=
  bs.Pairwise (fun a c => a.start_addr + a.size ≤ c.start_addr) ∧
  ∀ b ∈ bs, 0 < b.start_addr ∧ 0 < b.size ∧ b.start_addr + b.size < MOD

theorem sub64_add64_cancel (a b : Nat) (ha : a < MOD) :
    sub64 (add64 a b) b = a := by
  simp only [sub64, add64, MOD] at ha ⊢
  omega

theorem add64_sub64_cancel (a b : Nat) (ha : a < MOD) :
    add64 (sub64 a b) b = a := by
  simp only [sub64, add64, MOD] at ha ⊢
  omega

theorem add64_eq_of_lt {a b : Nat} (h : a + b < MOD) : add64 a b = a + b :=
  Nat.mod_eq_of_lt h

theorem findBlockScan_eq_none (addr : Nat) :
    ∀ l : List mem_block_t, (∀ b ∈ l, mem_block_contains b addr = false) →
      findBlockScan addr l = none := by
  intro l
  induction l with
  | nil => intro _; rfl
  | cons b rest ih =>
    intro hall
    have hb := hall b (List.mem_cons_self _ _)
    simp only [findBlockScan, hb]
    rw [ih (fun x hx => hall x (List.mem_cons_of_mem _ hx))]
    rfl

theorem findBlockScan_found (addr : Nat) :
    ∀ (l1 : List mem_block_t) (b : mem_block_t) (l2 : List mem_block_t),
      (∀ x ∈ l1, mem_block_contains x addr = false) →
      mem_block_contains b addr = true →
      findBlockScan addr (l1 ++ b :: l2) = some l1.length := by
  intro l1
  induction l1 with
  | nil =>
    intro b l2 _ hb
    simp [findBlockScan, hb]
  | cons x rest ih =>
    intro b l2 hpre hb
    have hx := hpre x (List.mem_cons_self _ _)
    rw [List.cons_append]
    show (if mem_block_contains x addr then some 0
          else (findBlockScan addr (rest ++ b :: l2)).map (· + 1))
        = some (x :: rest).length
    rw [hx]
    rw [ih b l2 (fun y hy => hpre y (List.mem_cons_of_mem _ hy)) hb]
    simp

theorem getElem?_append_length {α : Type} :
    ∀ (l1 : List α) (x : α) (l2 : List α), (l1 ++ x :: l2)[l1.length]? = some x := by
  intro l1
  induction l1 with
  | nil => intro x l2; simp
  | cons y rest ih =>
    intro x l2
    set_option linter.unnecessarySimpa false in simpa using ih x l2

theorem getElem?_append_cons {α : Type} (l1 : List α) (x : α) (l2 : List α)
    (i : Nat) (h : l1.length = i) : (l1 ++ x :: l2)[i]? = some x := by
  subst h
  exact getElem?_append_length l1 x l2

theorem list_set_middle {α : Type} :
    ∀ (l1 : List α) (x y : α) (l2 : List α),
      (l1 ++ x :: l2).set l1.length y = l1 ++ y :: l2 := by
  intro l1
  induction l1 with
  | nil => intro x y l2; rfl
  | cons z rest ih => intro x y l2; simpa using ih x y l2

theorem list_set_at {α : Type} (l1 : List α) (x y : α) (l2 : List α)
    (i : Nat) (h : l1.length = i) : (l1 ++ x :: l2).set i y = l1 ++ y :: l2 := by
  subst h
  exact list_set_middle l1 x y l2

theorem list_set_eq_take_cons_drop {α : Type} :
    ∀ (l : List α) (i : Nat) (y : α), i < l.length →
      l.set i y = l.take i ++ y :: l.drop (i + 1) := by
  intro l
  induction l with
  | nil => intro i y h; cases h
  | cons x rest ih =>
    intro i y h
    cases i with
    | zero => rfl
    | succ j =>
      simp only [List.set_cons_succ, List.take_succ_cons, List.drop_succ_cons,
        List.cons_append]
      rw [ih j y (by simpa using h)]

theorem pairwise_prefix_le :
    ∀ (bs : List mem_block_t) (i : Nat) (b : mem_block_t),
      bs.Pairwise (fun a c => a.start_addr + a.size ≤ c.start_addr) →
      bs[i]? = some b →
      ∀ x ∈ bs.take i, x.start_addr + x.size ≤ b.start_addr := by
  intro bs
  induction bs with
  | nil => intro i b hpw hget; simp at hget
  | cons c rest ih =>
    intro i b hpw hget
    cases i with
    | zero => simp
    | succ j =>
      rw [List.getElem?_cons_succ] at hget
      intro x hx
      rw [List.take_succ_cons] at hx
      rcases List.mem_cons.mp hx with rfl | hx2
      · exact (List.pairwise_cons.mp hpw).1 b (List.getElem?_mem hget)
      · exact ih j b (List.pairwise_cons.mp hpw).2 hget x hx2

/- ===================== C5 ===================== -/

/-- C5: `heap_free` on an address contained in no block (NotFound), or on
an address whose containing block is not `MEM_ALLOCATED` (double free),
returns an error code (-1) and leaves the heap — block list, states,
`block_count`, `total_allocated`, `total_free`, `peak_allocated` — exactly
as it was, so `heap_verify` still returns ok when it did before. -/
theorem heap_free_error_leaves_heap_unchanged (h : heap_t) (addr : Nat)
    (hv : heap_verify h = 0)
    (herr : (∀ b ∈ h.blocks, mem_block_contains b addr = false) ∨
            (∃ i b, heap_find_block h addr = some i ∧ h.blocks[i]? = some b ∧
               b.state ≠ MEM_ALLOCATED)) :
    heap_free h addr = (-1, h) ∧ heap_verify (heap_free h addr).2 = 0 := by
  have main : heap_free h addr = (-1, h) := by
    rcases herr with hnone | ⟨i, b, hfind, hget, hstate⟩
    · by_cases h0 : addr = 0
      · simp [heap_free, h0]
      · have hnf : heap_find_block h addr = none := by
          unfold heap_find_block
          rw [if_neg h0]
          exact findBlockScan_eq_none addr _ hnone
        simp [heap_free, h0, hnf]
    · have h0 : addr ≠ 0 := by
        intro h0
        rw [h0] at hfind
        simp [heap_find_block] at hfind
      unfold heap_free
      rw [if_neg h0, hfind]
      dsimp only
      rw [hget]
      dsimp only
      rw [if_pos hstate]
  exact ⟨main, by rw [main]; exact hv⟩

/-- Witness for C5: freeing `0xdeadbeef` on a fresh one-block heap is
NotFound; the heap is untouched and verify still says ok. -/
theorem heap_free_error_leaves_heap_unchanged_witness :
    heap_free ((heap_init 4096 (some 4096)).getD default) 3735928559 =
      (-1, (heap_init 4096 (some 4096)).getD default) ∧
    heap_verify
      (heap_free ((heap_init 4096 (some 4096)).getD default) 3735928559).2 = 0 :=
  heap_free_error_leaves_heap_unchanged
    ((heap_init 4096 (some 4096)).getD default) 3735928559
    (by decide) (Or.inl (by decide))

/- ===================== Allocation path lemmas ===================== -/

theorem mem_block_split_some {b : mem_block_t} {k : Nat}
    {left right : mem_block_t} (h : mem_block_split b k = some (left, right)) :
    b.state = MEM_FREE ∧ k ≠ 0 ∧ k < b.size ∧
    left = { b with size := k } ∧
    right = { start_addr := add64 b.start_addr k, size := b.size - k,
              state := MEM_FREE, prev := some b.start_addr } := by
  unfold mem_block_split at h
  by_cases hst : b.state ≠ MEM_FREE
  · rw [if_pos hst] at h; cases h
  · rw [if_neg hst] at h
    push_neg at hst
    by_cases hg : k = 0 ∨ b.size ≤ k ∨ ¬ IS_ALIGNED k ALIGN_SIZE
    · rw [if_pos hg] at h; cases h
    · rw [if_neg hg] at h
      push_neg at hg
      unfold mem_block_create at h
      dsimp only at h
      have hlt : k < b.size := by
        have := hg.2.1
        omega
      rw [if_neg (by omega : ¬ b.size - k = 0)] at h
      by_cases hal : ¬ IS_ALIGNED (add64 b.start_addr k) ALIGN_SIZE
      · rw [if_pos hal] at h; cases h
      · rw [if_neg hal] at h
        dsimp only at h
        injection h with h2
        injection h2 with hl hr
        refine ⟨hst, hg.1, hlt, ?_, ?_⟩
        · rw [← hl]
        · rw [← hr]

theorem splitChainAt_some :
    ∀ (bs : List mem_block_t) (i k : Nat) (l : List mem_block_t),
      splitChainAt bs i k = some l →
      ∃ b left right, bs[i]? = some b ∧
        mem_block_split b k = some (left, right) ∧
        l = bs.take i ++ left :: right ::
              setHeadPrev right.start_addr (bs.drop (i + 1)) := by
  intro bs
  induction bs with
  | nil => intro i k l h; cases h
  | cons c rest ih =>
    intro i k l h
    cases i with
    | zero =>
      simp only [splitChainAt] at h
      cases hs : mem_block_split c k with
      | none => rw [hs] at h; cases h
      | some lr =>
        obtain ⟨left, right⟩ := lr
        rw [hs] at h
        dsimp only at h
        injection h with h2
        exact ⟨c, left, right, by simp, hs, by rw [← h2]; simp⟩
    | succ j =>
      simp only [splitChainAt] at h
      cases hs : splitChainAt rest j k with
      | none => rw [hs] at h; cases h
      | some rest2 =>
        rw [hs] at h
        dsimp only at h
        injection h with h2
        obtain ⟨b, left, right, hget, hsplit, hshape⟩ := ih j k rest2 hs
        exact ⟨b, left, right, by simpa using hget, hsplit,
          by rw [← h2, hshape]; simp⟩

theorem firstFitScan_some (k : Nat) :
    ∀ (l : List mem_block_t) (i : Nat), firstFitScan k l = some i →
      ∃ b, l[i]? = some b ∧ mem_block_can_satisfy b k = true := by
  intro l
  induction l with
  | nil => intro i h; cases h
  | cons b rest ih =>
    intro i h
    by_cases hc : mem_block_can_satisfy b k
    · simp only [firstFitScan, if_pos hc] at h
      injection h with h2
      exact ⟨b, by rw [← h2]; simp, hc⟩
    · simp only [firstFitScan, if_neg hc] at h
      rw [Option.map_eq_some'] at h
      obtain ⟨j, hj, rfl⟩ := h
      obtain ⟨b2, hget, hcan⟩ := ih j hj
      exact ⟨b2, by simpa using hget, hcan⟩

theorem bestFitScan_cons (k : Nat) (c : mem_block_t) (rest : List mem_block_t)
    (sel : Option (Nat × mem_block_t)) (i0 : Nat) :
    bestFitScan k (c :: rest) sel i0 =
      bestFitScan k rest
        (if mem_block_can_satisfy c k &&
            (match sel with
             | none => true
             | some (_, s) => decide (c.size < s.size))
         then some (i0, c) else sel) (i0 + 1) := rfl

theorem worstFitScan_cons (k : Nat) (c : mem_block_t) (rest : List mem_block_t)
    (sel : Option (Nat × mem_block_t)) (i0 : Nat) :
    worstFitScan k (c :: rest) sel i0 =
      worstFitScan k rest
        (if mem_block_can_satisfy c k &&
            (match sel with
             | none => true
             | some (_, s) => decide (s.size < c.size))
         then some (i0, c) else sel) (i0 + 1) := rfl

theorem bestFitScan_mem (k : Nat) :
    ∀ (l : List mem_block_t) (sel : Option (Nat × mem_block_t)) (i0 j : Nat)
      (b : mem_block_t), bestFitScan k l sel i0 = some (j, b) →
      sel = some (j, b) ∨
      ∃ off, l[off]? = some b ∧ j = i0 + off ∧
        mem_block_can_satisfy b k = true := by
  intro l
  induction l with
  | nil => intro sel i0 j b h; exact Or.inl h
  | cons c rest ih =>
    intro sel i0 j b h
    rw [bestFitScan_cons] at h
    have key : ∀ (cond : Bool), (cond = true → mem_block_can_satisfy c k = true) →
        bestFitScan k rest (if cond then some (i0, c) else sel) (i0 + 1) = some (j, b) →
        sel = some (j, b) ∨ ∃ off, (c :: rest)[off]? = some b ∧ j = i0 + off ∧
          mem_block_can_satisfy b k = true := by
      intro cond hcnd h2
      cases cond with
      | false =>
        rw [if_neg (by simp)] at h2
        rcases ih _ _ _ _ h2 with hsel | ⟨off, hget, hj, hcan⟩
        · exact Or.inl hsel
        · exact Or.inr ⟨off + 1, by simpa using hget, by omega, hcan⟩
      | true =>
        rw [if_pos rfl] at h2
        rcases ih _ _ _ _ h2 with hsel | ⟨off, hget, hj, hcan⟩
        · injection hsel with h3
          injection h3 with h4 h5
          subst h4
          subst h5
          exact Or.inr ⟨0, by simp, by omega, hcnd rfl⟩
        · exact Or.inr ⟨off + 1, by simpa using hget, by omega, hcan⟩
    exact key _ (fun hcnd => Bool.and_elim_left hcnd) h

theorem worstFitScan_mem (k : Nat) :
    ∀ (l : List mem_block_t) (sel : Option (Nat × mem_block_t)) (i0 j : Nat)
      (b : mem_block_t), worstFitScan k l sel i0 = some (j, b) →
      sel = some (j, b) ∨
      ∃ off, l[off]? = some b ∧ j = i0 + off ∧
        mem_block_can_satisfy b k = true := by
  intro l
  induction l with
  | nil => intro sel i0 j b h; exact Or.inl h
  | cons c rest ih =>
    intro sel i0 j b h
    rw [worstFitScan_cons] at h
    have key : ∀ (cond : Bool), (cond = true → mem_block_can_satisfy c k = true) →
        worstFitScan k rest (if cond then some (i0, c) else sel) (i0 + 1) = some (j, b) →
        sel = some (j, b) ∨ ∃ off, (c :: rest)[off]? = some b ∧ j = i0 + off ∧
          mem_block_can_satisfy b k = true := by
      intro cond hcnd h2
      cases cond with
      | false =>
        rw [if_neg (by simp)] at h2
        rcases ih _ _ _ _ h2 with hsel | ⟨off, hget, hj, hcan⟩
        · exact Or.inl hsel
        · exact Or.inr ⟨off + 1, by simpa using hget, by omega, hcan⟩
      | true =>
        rw [if_pos rfl] at h2
        rcases ih _ _ _ _ h2 with hsel | ⟨off, hget, hj, hcan⟩
        · injection hsel with h3
          injection h3 with h4 h5
          subst h4
          subst h5
          exact Or.inr ⟨0, by simp, by omega, hcnd rfl⟩
        · exact Or.inr ⟨off + 1, by simpa using hget, by omega, hcan⟩
    exact key _ (fun hcnd => Bool.and_elim_left hcnd) h

theorem heap_find_free_block_some {h : heap_t} {k i : Nat}
    (hf : heap_find_free_block h k = some i) :
    ∃ b, h.blocks[i]? = some b ∧ mem_block_can_satisfy b k = true ∧ k ≠ 0 := by
  unfold heap_find_free_block at hf
  by_cases hk : k = 0
  · rw [if_pos hk] at hf; cases hf
  · rw [if_neg hk] at hf
    by_cases h0 : h.alloc_strategy = HEAP_STRATEGY_FIRST_FIT
    · rw [if_pos h0] at hf
      obtain ⟨b, hget, hcan⟩ := firstFitScan_some k _ _ hf
      exact ⟨b, hget, hcan, hk⟩
    · rw [if_neg h0] at hf
      by_cases h1 : h.alloc_strategy = HEAP_STRATEGY_BEST_FIT
      · rw [if_pos h1] at hf
        rw [Option.map_eq_some'] at hf
        obtain ⟨⟨j, b⟩, hscan, hj⟩ := hf
        rcases bestFitScan_mem k _ _ _ _ _ hscan with hsel | ⟨off, hget, hoff, hcan⟩
        · cases hsel
        · refine ⟨b, ?_, hcan, hk⟩
          have : i = off := by omega
          rw [this]
          exact hget
      · rw [if_neg h1] at hf
        by_cases h2 : h.alloc_strategy = HEAP_STRATEGY_WORST_FIT
        · rw [if_pos h2] at hf
          rw [Option.map_eq_some'] at hf
          obtain ⟨⟨j, b⟩, hscan, hj⟩ := hf
          rcases worstFitScan_mem k _ _ _ _ _ hscan with hsel | ⟨off, hget, hoff, hcan⟩
          · cases hsel
          · refine ⟨b, ?_, hcan, hk⟩
            have : i = off := by omega
            rw [this]
            exact hget
        · rw [if_neg h2] at hf
          cases hf

/-- When `heap_alloc_finish` succeeds on the satisfying block at index `i`,
it returns the block's start address, adds the (aligned) request to
`total_allocated`, removes it from `total_free`, raises the peak exactly
when exceeded, and the resulting chain keeps the first `i` blocks and then
the selected block, shortened to size `k` and marked `MEM_ALLOCATED`. -/
theorem heap_alloc_finish_success {h : heap_t} {i k : Nat} {b : mem_block_t}
    (hget : h.blocks[i]? = some b) (hcan : mem_block_can_satisfy b k = true)
    {p : Nat} {h2 : heap_t}
    (hres : heap_alloc_finish h i k = (some p, h2)) :
    p = b.start_addr ∧
    h2.total_allocated = add64 h.total_allocated k ∧
    h2.total_free = sub64 h.total_free k ∧
    h2.peak_allocated =
      (if h.peak_allocated < add64 h.total_allocated k
       then add64 h.total_allocated k else h.peak_allocated) ∧
    ∃ tail, h2.blocks =
      h.blocks.take i ++ { b with size := k, state := MEM_ALLOCATED } :: tail := by
  have hcan2 := hcan
  unfold mem_block_can_satisfy at hcan2
  rw [Bool.and_eq_true] at hcan2
  have hkb : k ≤ b.size := by simpa using hcan2.2
  have hi : i < h.blocks.length := (List.getElem?_eq_some.mp hget).1
  unfold heap_alloc_finish at hres
  rw [hget] at hres
  dsimp only at hres
  by_cases hlt : k < b.size
  · rw [if_pos hlt] at hres
    cases hs : splitChainAt h.blocks i k with
    | none =>
      rw [hs] at hres
      dsimp only at hres
      injection hres with hres1
      cases hres1
    | some blocks2 =>
      rw [hs] at hres
      dsimp only at hres
      obtain ⟨b0, left, right, hget0, hsplit, hshape⟩ := splitChainAt_some _ _ _ _ hs
      rw [hget] at hget0
      injection hget0 with hb0
      subst hb0
      obtain ⟨hstf, hk0, hklt, hleft, hright⟩ := mem_block_split_some hsplit
      subst hleft
      subst hright
      have hlen : (h.blocks.take i).length = i := by
        rw [List.length_take]
        omega
      have hgl : blocks2[i]? = some { b with size := k } := by
        rw [hshape]
        exact getElem?_append_cons _ _ _ _ hlen
      rw [hgl] at hres
      dsimp only at hres
      injection hres with hres1 hres2
      injection hres1 with hres1
      subst hres2
      refine ⟨hres1.symm, rfl, rfl, rfl, ?_⟩
      refine ⟨{ start_addr := add64 b.start_addr k, size := b.size - k,
                state := MEM_FREE, prev := some b.start_addr } ::
              setHeadPrev (add64 b.start_addr k) (h.blocks.drop (i + 1)), ?_⟩
      show blocks2.set i { b with size := k, state := MEM_ALLOCATED } = _
      rw [hshape, list_set_at _ _ _ _ _ hlen]
  · rw [if_neg hlt] at hres
    dsimp only at hres
    rw [hget] at hres
    dsimp only at hres
    injection hres with hres1 hres2
    injection hres1 with hres1
    subst hres2
    have hbk : b.size = k := by omega
    refine ⟨hres1.symm, ?_, ?_, ?_, ?_⟩
    · show add64 h.total_allocated b.size = add64 h.total_allocated k
      rw [hbk]
    · show sub64 h.total_free b.size = sub64 h.total_free k
      rw [hbk]
    · show (if h.peak_allocated < add64 h.total_allocated b.size
            then add64 h.total_allocated b.size else h.peak_allocated) = _
      rw [hbk]
    · refine ⟨h.blocks.drop (i + 1), ?_⟩
      show h.blocks.set i { b with state := MEM_ALLOCATED } = _
      rw [list_set_eq_take_cons_drop _ _ _ hi]
      have hb2 : ({ b with state := MEM_ALLOCATED } : mem_block_t)
          = { b with size := k, state := MEM_ALLOCATED } := by
        rw [← hbk]
      rw [hb2]

theorem contains_false_of_range_le {x : mem_block_t} {p : Nat}
    (h : x.start_addr + x.size ≤ p) : mem_block_contains x p = false := by
  have h2 : add64 x.start_addr x.size ≤ x.start_addr + x.size := Nat.mod_le _ _
  unfold mem_block_contains
  rw [Bool.and_eq_false_iff]
  right
  rw [decide_eq_false_iff_not]
  omega

theorem contains_start {x : mem_block_t} (hk : 0 < x.size)
    (hlt : x.start_addr + x.size < MOD) :
    mem_block_contains x x.start_addr = true := by
  unfold mem_block_contains add64
  rw [Nat.mod_eq_of_lt hlt, Bool.and_eq_true]
  constructor <;> rw [decide_eq_true_eq] <;> omega

/-- `heap_free` on an address whose containing block (at chain index `i`) is
`MEM_ALLOCATED` returns ok, moves the block's size from `total_allocated`
to `total_free`, and never changes the peak (the merges touch only the
chain and `block_count`). -/
theorem heap_free_success {h : heap_t} {addr : Nat} {i : Nat} {b : mem_block_t}
    (h0 : addr ≠ 0)
    (hfind : heap_find_block h addr = some i)
    (hget : h.blocks[i]? = some b)
    (hall : b.state = MEM_ALLOCATED) :
    (heap_free h addr).1 = 0 ∧
    (heap_free h addr).2.total_allocated = sub64 h.total_allocated b.size ∧
    (heap_free h addr).2.total_free = add64 h.total_free b.size ∧
    (heap_free h addr).2.peak_allocated = h.peak_allocated := by
  unfold heap_free
  rw [if_neg h0, hfind]
  dsimp only
  rw [hget]
  dsimp only
  rw [if_neg (by rw [hall]; intro hc; exact hc rfl)]
  rcases hE : heap_try_merge_adjacent (h.blocks.set i { b with state := MEM_FREE }) i
    with ⟨bl, mg⟩
  exact ⟨rfl, rfl, rfl, rfl⟩

/-- The `FIRST_FIT` scan skips no satisfying block: everything before the
returned index fails `mem_block_can_satisfy`. -/
theorem firstFitScan_first (k : Nat) :
    ∀ (l : List mem_block_t) (i : Nat), firstFitScan k l = some i →
      ∀ j b2, j < i → l[j]? = some b2 → mem_block_can_satisfy b2 k = false := by
  intro l
  induction l with
  | nil => intro i h; cases h
  | cons b rest ih =>
    intro i h j b2 hj hget
    by_cases hc : mem_block_can_satisfy b k
    · simp only [firstFitScan, if_pos hc] at h
      injection h with h2
      exact absurd hj (by omega)
    · simp only [firstFitScan, if_neg hc] at h
      rw [Option.map_eq_some'] at h
      obtain ⟨i2, hi2, rfl⟩ := h
      cases j with
      | zero =>
        rw [List.getElem?_cons_zero] at hget
        injection hget with hg
        rw [← hg]
        exact Bool.eq_false_iff.mpr hc
      | succ j2 =>
        rw [List.getElem?_cons_succ] at hget
        exact ih i2 hi2 j2 b2 (by omega) hget

theorem firstFitScan_none (k : Nat) :
    ∀ (l : List mem_block_t), firstFitScan k l = none →
      ∀ b ∈ l, mem_block_can_satisfy b k = false := by
  intro l
  induction l with
  | nil => intro _ b hb; cases hb
  | cons c rest ih =>
    intro h b hb
    by_cases hc : mem_block_can_satisfy c k
    · simp only [firstFitScan, if_pos hc] at h
      cases h
    · simp only [firstFitScan, if_neg hc] at h
      rw [Option.map_eq_none'] at h
      rcases List.mem_cons.mp hb with rfl | hb2
      · exact Bool.eq_false_iff.mpr hc
      · exact ih h b hb2

/-- The `selected == NULL || block->size < selected->size` replacement test
of the BEST_FIT loop (mem_block.c:511). -/
def bestReplace (c : mem_block_t) (sel : Option (Nat × mem_block_t)) : Bool :=
  match sel with
  | none => true
  | some (_, s) => decide (c.size < s.size)

/-- The `selected == NULL || block->size > selected->size` replacement test
of the WORST_FIT loop (mem_block.c:524). -/
def worstReplace (c : mem_block_t) (sel : Option (Nat × mem_block_t)) : Bool :=
  match sel with
  | none => true
  | some (_, s) => decide (s.size < c.size)

theorem bestFitScan_cons2 (k : Nat) (c : mem_block_t) (rest : List mem_block_t)
    (sel : Option (Nat × mem_block_t)) (i0 : Nat) :
    bestFitScan k (c :: rest) sel i0 =
      bestFitScan k rest
        (if mem_block_can_satisfy c k && bestReplace c sel
         then some (i0, c) else sel) (i0 + 1) := rfl

theorem worstFitScan_cons2 (k : Nat) (c : mem_block_t) (rest : List mem_block_t)
    (sel : Option (Nat × mem_block_t)) (i0 : Nat) :
    worstFitScan k (c :: rest) sel i0 =
      worstFitScan k rest
        (if mem_block_can_satisfy c k && worstReplace c sel
         then some (i0, c) else sel) (i0 + 1) := rfl

/-- Full functional spec of the `BEST_FIT` scan: a returned block is a
satisfying block of minimal size, and among the minimal ones the first in
scan order (every strictly earlier satisfying block is strictly larger). -/
theorem bestFitScan_spec (k : Nat) :
    ∀ (l : List mem_block_t) (sel : Option (Nat × mem_block_t)) (i0 : Nat),
      (bestFitScan k l sel i0 = none →
        sel = none ∧ ∀ b ∈ l, mem_block_can_satisfy b k = false) ∧
      (∀ (j : Nat) (b : mem_block_t), bestFitScan k l sel i0 = some (j, b) →
        (sel = some (j, b) ∧
          ∀ (off : Nat) (b2 : mem_block_t), l[off]? = some b2 →
            mem_block_can_satisfy b2 k = true → b.size ≤ b2.size) ∨
        (∃ off : Nat, l[off]? = some b ∧ j = i0 + off ∧
           mem_block_can_satisfy b k = true ∧
           (∀ (j0 : Nat) (b0 : mem_block_t), sel = some (j0, b0) →
             b.size < b0.size) ∧
           (∀ (off2 : Nat) (b2 : mem_block_t), off2 < off → l[off2]? = some b2 →
             mem_block_can_satisfy b2 k = true → b.size < b2.size) ∧
           (∀ (off2 : Nat) (b2 : mem_block_t), l[off2]? = some b2 →
             mem_block_can_satisfy b2 k = true → b.size ≤ b2.size))) := by
  intro l
  induction l with
  | nil =>
    intro sel i0
    constructor
    · intro h
      exact ⟨h, by simp⟩
    · intro j b h
      exact Or.inl ⟨h, by simp⟩
  | cons c rest ih =>
    intro sel i0
    rw [bestFitScan_cons2 k c rest sel i0]
    have hcond_false : (mem_block_can_satisfy c k && bestReplace c sel) = false →
        mem_block_can_satisfy c k = true →
        ∃ j0 b0, sel = some (j0, b0) ∧ b0.size ≤ c.size := by
      intro hc hcs
      rw [hcs, Bool.true_and] at hc
      cases hsel : sel with
      | none =>
        rw [hsel] at hc
        simp [bestReplace] at hc
      | some jb =>
        obtain ⟨j0, b0⟩ := jb
        rw [hsel] at hc
        simp only [bestReplace] at hc
        rw [decide_eq_false_iff_not] at hc
        exact ⟨j0, b0, rfl, by omega⟩
    have hcond_true : (mem_block_can_satisfy c k && bestReplace c sel) = true →
        mem_block_can_satisfy c k = true ∧
        ∀ j0 b0, sel = some (j0, b0) → c.size < b0.size := by
      intro hc
      refine ⟨Bool.and_elim_left hc, ?_⟩
      intro j0 b0 hsel
      have h2 := Bool.and_elim_right hc
      rw [hsel] at h2
      simp only [bestReplace] at h2
      exact of_decide_eq_true h2
    cases hcond : (mem_block_can_satisfy c k && bestReplace c sel) with
    | false =>
      rw [if_neg Bool.false_ne_true]
      constructor
      · intro h
        obtain ⟨hselnone, hrest⟩ := (ih sel (i0 + 1)).1 h
        refine ⟨hselnone, ?_⟩
        intro b hb
        rcases List.mem_cons.mp hb with rfl | hb2
        · by_cases hcs : mem_block_can_satisfy b k = true
          · obtain ⟨j0, b0, hsel0, -⟩ := hcond_false hcond hcs
            rw [hsel0] at hselnone
            cases hselnone
          · exact Bool.eq_false_iff.mpr hcs
        · exact hrest b hb2
      · intro j b h
        rcases (ih sel (i0 + 1)).2 j b h with ⟨hsel, hmin⟩ |
          ⟨off, hget, hj, hcan, hselbeats, hstrict, hglobal⟩
        · refine Or.inl ⟨hsel, ?_⟩
          intro off b2 hget2 hcan2
          cases off with
          | zero =>
            rw [List.getElem?_cons_zero] at hget2
            injection hget2 with hg
            subst hg
            obtain ⟨j0, b0, hsel0, hle⟩ := hcond_false hcond hcan2
            rw [hsel0] at hsel
            injection hsel with hsel2
            injection hsel2 with h4 h5
            subst h5
            omega
          | succ o2 =>
            rw [List.getElem?_cons_succ] at hget2
            exact hmin o2 b2 hget2 hcan2
        · refine Or.inr ⟨off + 1, by simpa using hget, by omega, hcan,
            hselbeats, ?_, ?_⟩
          · intro off2 b2 hlt2 hget2 hcan2
            cases off2 with
            | zero =>
              rw [List.getElem?_cons_zero] at hget2
              injection hget2 with hg
              subst hg
              obtain ⟨j0, b0, hsel0, hle⟩ := hcond_false hcond hcan2
              have := hselbeats j0 b0 hsel0
              omega
            | succ o2 =>
              rw [List.getElem?_cons_succ] at hget2
              exact hstrict o2 b2 (by omega) hget2 hcan2
          · intro off2 b2 hget2 hcan2
            cases off2 with
            | zero =>
              rw [List.getElem?_cons_zero] at hget2
              injection hget2 with hg
              subst hg
              obtain ⟨j0, b0, hsel0, hle⟩ := hcond_false hcond hcan2
              have := hselbeats j0 b0 hsel0
              omega
            | succ o2 =>
              rw [List.getElem?_cons_succ] at hget2
              exact hglobal o2 b2 hget2 hcan2
    | true =>
      obtain ⟨hcs, hbeats⟩ := hcond_true hcond
      rw [if_pos rfl]
      constructor
      · intro h
        exact absurd ((ih (some (i0, c)) (i0 + 1)).1 h).1 (by simp)
      · intro j b h
        rcases (ih (some (i0, c)) (i0 + 1)).2 j b h with ⟨hsel, hmin⟩ |
          ⟨off, hget, hj, hcan, hselbeats, hstrict, hglobal⟩
        · injection hsel with hsel2
          injection hsel2 with h4 h5
          subst h4
          subst h5
          refine Or.inr ⟨0, by simp, by omega, hcs, hbeats, ?_, ?_⟩
          · intro off2 b2 hlt2 _ _
            exact absurd hlt2 (by omega)
          · intro off2 b2 hget2 hcan2
            cases off2 with
            | zero =>
              rw [List.getElem?_cons_zero] at hget2
              injection hget2 with hg
              subst hg
              omega
            | succ o2 =>
              rw [List.getElem?_cons_succ] at hget2
              exact hmin o2 b2 hget2 hcan2
        · have hltc : b.size < c.size := hselbeats i0 c rfl
          refine Or.inr ⟨off + 1, by simpa using hget, by omega, hcan, ?_, ?_, ?_⟩
          · intro j0 b0 hsel0
            have := hbeats j0 b0 hsel0
            omega
          · intro off2 b2 hlt2 hget2 hcan2
            cases off2 with
            | zero =>
              rw [List.getElem?_cons_zero] at hget2
              injection hget2 with hg
              subst hg
              omega
            | succ o2 =>
              rw [List.getElem?_cons_succ] at hget2
              exact hstrict o2 b2 (by omega) hget2 hcan2
          · intro off2 b2 hget2 hcan2
            cases off2 with
            | zero =>
              rw [List.getElem?_cons_zero] at hget2
              injection hget2 with hg
              subst hg
              omega
            | succ o2 =>
              rw [List.getElem?_cons_succ] at hget2
              exact hglobal o2 b2 hget2 hcan2

/-- Full functional spec of the `WORST_FIT` scan: a returned block is a
satisfying block of maximal size, and among the maximal ones the first in
scan order (every strictly earlier satisfying block is strictly smaller). -/
theorem worstFitScan_spec (k : Nat) :
    ∀ (l : List mem_block_t) (sel : Option (Nat × mem_block_t)) (i0 : Nat),
      (worstFitScan k l sel i0 = none →
        sel = none ∧ ∀ b ∈ l, mem_block_can_satisfy b k = false) ∧
      (∀ (j : Nat) (b : mem_block_t), worstFitScan k l sel i0 = some (j, b) →
        (sel = some (j, b) ∧
          ∀ (off : Nat) (b2 : mem_block_t), l[off]? = some b2 →
            mem_block_can_satisfy b2 k = true → b2.size ≤ b.size) ∨
        (∃ off : Nat, l[off]? = some b ∧ j = i0 + off ∧
           mem_block_can_satisfy b k = true ∧
           (∀ (j0 : Nat) (b0 : mem_block_t), sel = some (j0, b0) →
             b0.size < b.size) ∧
           (∀ (off2 : Nat) (b2 : mem_block_t), off2 < off → l[off2]? = some b2 →
             mem_block_can_satisfy b2 k = true → b2.size < b.size) ∧
           (∀ (off2 : Nat) (b2 : mem_block_t), l[off2]? = some b2 →
             mem_block_can_satisfy b2 k = true → b2.size ≤ b.size))) := by
  intro l
  induction l with
  | nil =>
    intro sel i0
    constructor
    · intro h
      exact ⟨h, by simp⟩
    · intro j b h
      exact Or.inl ⟨h, by simp⟩
  | cons c rest ih =>
    intro sel i0
    rw [worstFitScan_cons2 k c rest sel i0]
    have hcond_false : (mem_block_can_satisfy c k && worstReplace c sel) = false →
        mem_block_can_satisfy c k = true →
        ∃ j0 b0, sel = some (j0, b0) ∧ c.size ≤ b0.size := by
      intro hc hcs
      rw [hcs, Bool.true_and] at hc
      cases hsel : sel with
      | none =>
        rw [hsel] at hc
        simp [worstReplace] at hc
      | some jb =>
        obtain ⟨j0, b0⟩ := jb
        rw [hsel] at hc
        simp only [worstReplace] at hc
        rw [decide_eq_false_iff_not] at hc
        exact ⟨j0, b0, rfl, by omega⟩
    have hcond_true : (mem_block_can_satisfy c k && worstReplace c sel) = true →
        mem_block_can_satisfy c k = true ∧
        ∀ j0 b0, sel = some (j0, b0) → b0.size < c.size := by
      intro hc
      refine ⟨Bool.and_elim_left hc, ?_⟩
      intro j0 b0 hsel
      have h2 := Bool.and_elim_right hc
      rw [hsel] at h2
      simp only [worstReplace] at h2
      exact of_decide_eq_true h2
    cases hcond : (mem_block_can_satisfy c k && worstReplace c sel) with
    | false =>
      rw [if_neg Bool.false_ne_true]
      constructor
      · intro h
        obtain ⟨hselnone, hrest⟩ := (ih sel (i0 + 1)).1 h
        refine ⟨hselnone, ?_⟩
        intro b hb
        rcases List.mem_cons.mp hb with rfl | hb2
        · by_cases hcs : mem_block_can_satisfy b k = true
          · obtain ⟨j0, b0, hsel0, -⟩ := hcond_false hcond hcs
            rw [hsel0] at hselnone
            cases hselnone
          · exact Bool.eq_false_iff.mpr hcs
        · exact hrest b hb2
      · intro j b h
        rcases (ih sel (i0 + 1)).2 j b h with ⟨hsel, hmin⟩ |
          ⟨off, hget, hj, hcan, hselbeats, hstrict, hglobal⟩
        · refine Or.inl ⟨hsel, ?_⟩
          intro off b2 hget2 hcan2
          cases off with
          | zero =>
            rw [List.getElem?_cons_zero] at hget2
            injection hget2 with hg
            subst hg
            obtain ⟨j0, b0, hsel0, hle⟩ := hcond_false hcond hcan2
            rw [hsel0] at hsel
            injection hsel with hsel2
            injection hsel2 with h4 h5
            subst h5
            omega
          | succ o2 =>
            rw [List.getElem?_cons_succ] at hget2
            exact hmin o2 b2 hget2 hcan2
        · refine Or.inr ⟨off + 1, by simpa using hget, by omega, hcan,
            hselbeats, ?_, ?_⟩
          · intro off2 b2 hlt2 hget2 hcan2
            cases off2 with
            | zero =>
              rw [List.getElem?_cons_zero] at hget2
              injection hget2 with hg
              subst hg
              obtain ⟨j0, b0, hsel0, hle⟩ := hcond_false hcond hcan2
              have := hselbeats j0 b0 hsel0
              omega
            | succ o2 =>
              rw [List.getElem?_cons_succ] at hget2
              exact hstrict o2 b2 (by omega) hget2 hcan2
          · intro off2 b2 hget2 hcan2
            cases off2 with
            | zero =>
              rw [List.getElem?_cons_zero] at hget2
              injection hget2 with hg
              subst hg
              obtain ⟨j0, b0, hsel0, hle⟩ := hcond_false hcond hcan2
              have := hselbeats j0 b0 hsel0
              omega
            | succ o2 =>
              rw [List.getElem?_cons_succ] at hget2
              exact hglobal o2 b2 hget2 hcan2
    | true =>
      obtain ⟨hcs, hbeats⟩ := hcond_true hcond
      rw [if_pos rfl]
      constructor
      · intro h
        exact absurd ((ih (some (i0, c)) (i0 + 1)).1 h).1 (by simp)
      · intro j b h
        rcases (ih (some (i0, c)) (i0 + 1)).2 j b h with ⟨hsel, hmin⟩ |
          ⟨off, hget, hj, hcan, hselbeats, hstrict, hglobal⟩
        · injection hsel with hsel2
          injection hsel2 with h4 h5
          subst h4
          subst h5
          refine Or.inr ⟨0, by simp, by omega, hcs, hbeats, ?_, ?_⟩
          · intro off2 b2 hlt2 _ _
            exact absurd hlt2 (by omega)
          · intro off2 b2 hget2 hcan2
            cases off2 with
            | zero =>
              rw [List.getElem?_cons_zero] at hget2
              injection hget2 with hg
              subst hg
              omega
            | succ o2 =>
              rw [List.getElem?_cons_succ] at hget2
              exact hmin o2 b2 hget2 hcan2
        · have hltc : c.size < b.size := hselbeats i0 c rfl
          refine Or.inr ⟨off + 1, by simpa using hget, by omega, hcan, ?_, ?_, ?_⟩
          · intro j0 b0 hsel0
            have := hbeats j0 b0 hsel0
            omega
          · intro off2 b2 hlt2 hget2 hcan2
            cases off2 with
            | zero =>
              rw [List.getElem?_cons_zero] at hget2
              injection hget2 with hg
              subst hg
              omega
            | succ o2 =>
              rw [List.getElem?_cons_succ] at hget2
              exact hstrict o2 b2 (by omega) hget2 hcan2
          · intro off2 b2 hget2 hcan2
            cases off2 with
            | zero =>
              rw [List.getElem?_cons_zero] at hget2
              injection hget2 with hg
              subst hg
              omega
            | succ o2 =>
              rw [List.getElem?_cons_succ] at hget2
              exact hglobal o2 b2 hget2 hcan2

theorem pairwise_lt_start_le (bs : List mem_block_t)
    (hpw : bs.Pairwise (fun a c => a.start_addr < c.start_addr)) :
    ∀ (i j : Nat) (b b2 : mem_block_t), i ≤ j → bs[i]? = some b →
      bs[j]? = some b2 → b.start_addr ≤ b2.start_addr := by
  intro i j b b2 hij hgi hgj
  rcases Nat.eq_or_lt_of_le hij with rfl | hlt
  · rw [hgi] at hgj
    injection hgj with h2
    rw [h2]
  · obtain ⟨hi, hbi⟩ := List.getElem?_eq_some.mp hgi
    obtain ⟨hj, hbj⟩ := List.getElem?_eq_some.mp hgj
    have := List.pairwise_iff_getElem.mp hpw i j hi hj hlt
    rw [hbi, hbj] at this
    omega

/- ===================== C7 ===================== -/

/-- C7 counterexample: for a requested size of 0, `heap_find_free_block`
does not return the first FREE block with `size ≥ 0`: its `size == 0`
guard returns `NULL` even though a FREE block satisfying the policy
exists. -/
theorem find_free_block_claim_false_at_zero :
    heap_find_free_block
      { blocks := [{ start_addr := 8, size := 8, state := MEM_FREE,
                     prev := none }],
        block_count := 1, total_allocated := 0, total_free := 8,
        peak_allocated := 0, alloc_strategy := HEAP_STRATEGY_FIRST_FIT }
      0 = none ∧
    mem_block_can_satisfy
      { start_addr := 8, size := 8, state := MEM_FREE, prev := none } 0
      = true := by
  decide

/-- C7 (amended): for requested sizes `k > 0` on an address-sorted chain,
`heap_find_free_block` conforms to the selected policy (it is a pure
lookup: the embedding returns only an index): under FIRST_FIT it returns
the first satisfying FREE block in list order; under BEST_FIT a
satisfying FREE block of minimal size, ties broken by earliest address;
under WORST_FIT one of maximal size among the satisfying, ties broken by
earliest address; in every policy it returns none exactly when no FREE
block has `size ≥ k` (for `k = 0` the `size == 0` guard returns none
regardless). -/
theorem find_free_block_policy (h : heap_t) (k : Nat) (hk : 0 < k)
    (hsorted : h.blocks.Pairwise (fun a c => a.start_addr < c.start_addr)) :
    (heap_find_free_block h k = none →
      (h.alloc_strategy = HEAP_STRATEGY_FIRST_FIT ∨
       h.alloc_strategy = HEAP_STRATEGY_BEST_FIT ∨
       h.alloc_strategy = HEAP_STRATEGY_WORST_FIT) →
      ∀ b ∈ h.blocks, mem_block_can_satisfy b k = false) ∧
    (∀ i : Nat, heap_find_free_block h k = some i →
      ∃ b, h.blocks[i]? = some b ∧ mem_block_can_satisfy b k = true ∧
        (h.alloc_strategy = HEAP_STRATEGY_FIRST_FIT →
          ∀ (j : Nat) (b2 : mem_block_t), j < i → h.blocks[j]? = some b2 →
            mem_block_can_satisfy b2 k = false) ∧
        (h.alloc_strategy = HEAP_STRATEGY_BEST_FIT →
          ∀ (j : Nat) (b2 : mem_block_t), h.blocks[j]? = some b2 →
            mem_block_can_satisfy b2 k = true →
            b.size ≤ b2.size ∧
              (b2.size = b.size → b.start_addr ≤ b2.start_addr)) ∧
        (h.alloc_strategy = HEAP_STRATEGY_WORST_FIT →
          ∀ (j : Nat) (b2 : mem_block_t), h.blocks[j]? = some b2 →
            mem_block_can_satisfy b2 k = true →
            b2.size ≤ b.size ∧
              (b2.size = b.size → b.start_addr ≤ b2.start_addr))) := by
  constructor
  · intro hnone hstrat
    unfold heap_find_free_block at hnone
    rw [if_neg (by omega : ¬ k = 0)] at hnone
    rcases hstrat with h0 | h1 | h2
    · rw [if_pos h0] at hnone
      exact firstFitScan_none k _ hnone
    · rw [if_neg (by rw [h1]; decide), if_pos h1, Option.map_eq_none'] at hnone
      exact ((bestFitScan_spec k h.blocks none 0).1 hnone).2
    · rw [if_neg (by rw [h2]; decide), if_neg (by rw [h2]; decide),
          if_pos h2, Option.map_eq_none'] at hnone
      exact ((worstFitScan_spec k h.blocks none 0).1 hnone).2
  · intro i hsome
    unfold heap_find_free_block at hsome
    rw [if_neg (by omega : ¬ k = 0)] at hsome
    by_cases h0 : h.alloc_strategy = HEAP_STRATEGY_FIRST_FIT
    · rw [if_pos h0] at hsome
      obtain ⟨b, hget, hcan⟩ := firstFitScan_some k _ _ hsome
      refine ⟨b, hget, hcan, fun _ => firstFitScan_first k _ _ hsome, ?_, ?_⟩
      · intro h1
        rw [h0] at h1
        exact absurd h1 (by decide)
      · intro h2
        rw [h0] at h2
        exact absurd h2 (by decide)
    · rw [if_neg h0] at hsome
      by_cases h1 : h.alloc_strategy = HEAP_STRATEGY_BEST_FIT
      · rw [if_pos h1, Option.map_eq_some'] at hsome
        obtain ⟨⟨j0, b⟩, hscan, hj0⟩ := hsome
        rcases (bestFitScan_spec k h.blocks none 0).2 j0 b hscan with
          ⟨hsel, -⟩ | ⟨off, hget, hoff, hcan, -, hstrict, hglobal⟩
        · cases hsel
        · have hio : i = off := by
            have : j0 = i := hj0
            omega
          subst hio
          refine ⟨b, hget, hcan, ?_, ?_, ?_⟩
          · intro hf
            rw [h1] at hf
            exact absurd hf (by decide)
          · intro _ j b2 hgetj hcanj
            refine ⟨hglobal j b2 hgetj hcanj, ?_⟩
            intro hsz
            by_cases hji : j < i
            · have := hstrict j b2 hji hgetj hcanj
              omega
            · exact pairwise_lt_start_le h.blocks hsorted i j b b2
                (by omega) hget hgetj
          · intro hf
            rw [h1] at hf
            exact absurd hf (by decide)
      · rw [if_neg h1] at hsome
        by_cases h2 : h.alloc_strategy = HEAP_STRATEGY_WORST_FIT
        · rw [if_pos h2, Option.map_eq_some'] at hsome
          obtain ⟨⟨j0, b⟩, hscan, hj0⟩ := hsome
          rcases (worstFitScan_spec k h.blocks none 0).2 j0 b hscan with
            ⟨hsel, -⟩ | ⟨off, hget, hoff, hcan, -, hstrict, hglobal⟩
          · cases hsel
          · have hio : i = off := by
              have : j0 = i := hj0
              omega
            subst hio
            refine ⟨b, hget, hcan, ?_, ?_, ?_⟩
            · intro hf
              rw [h2] at hf
              exact absurd hf (by decide)
            · intro hf
              rw [h2] at hf
              exact absurd hf (by decide)
            · intro _ j b2 hgetj hcanj
              refine ⟨hglobal j b2 hgetj hcanj, ?_⟩
              intro hsz
              by_cases hji : j < i
              · have := hstrict j b2 hji hgetj hcanj
                omega
              · exact pairwise_lt_start_le h.blocks hsorted i j b b2
                  (by omega) hget hgetj
        · rw [if_neg h2] at hsome
          cases hsome

/-- Witness for C7 (amended) on a fresh one-block FIRST_FIT heap with
`k = 8`. -/
theorem find_free_block_policy_witness :
    (heap_find_free_block ((heap_init 4096 (some 4096)).getD default) 8 = none →
      (((heap_init 4096 (some 4096)).getD default).alloc_strategy =
          HEAP_STRATEGY_FIRST_FIT ∨
       ((heap_init 4096 (some 4096)).getD default).alloc_strategy =
          HEAP_STRATEGY_BEST_FIT ∨
       ((heap_init 4096 (some 4096)).getD default).alloc_strategy =
          HEAP_STRATEGY_WORST_FIT) →
      ∀ b ∈ ((heap_init 4096 (some 4096)).getD default).blocks,
        mem_block_can_satisfy b 8 = false) ∧
    (∀ i : Nat,
      heap_find_free_block ((heap_init 4096 (some 4096)).getD default) 8
        = some i →
      ∃ b, ((heap_init 4096 (some 4096)).getD default).blocks[i]? = some b ∧
        mem_block_can_satisfy b 8 = true ∧
        (((heap_init 4096 (some 4096)).getD default).alloc_strategy =
            HEAP_STRATEGY_FIRST_FIT →
          ∀ (j : Nat) (b2 : mem_block_t), j < i →
            ((heap_init 4096 (some 4096)).getD default).blocks[j]? = some b2 →
            mem_block_can_satisfy b2 8 = false) ∧
        (((heap_init 4096 (some 4096)).getD default).alloc_strategy =
            HEAP_STRATEGY_BEST_FIT →
          ∀ (j : Nat) (b2 : mem_block_t),
            ((heap_init 4096 (some 4096)).getD default).blocks[j]? = some b2 →
            mem_block_can_satisfy b2 8 = true →
            b.size ≤ b2.size ∧
              (b2.size = b.size → b.start_addr ≤ b2.start_addr)) ∧
        (((heap_init 4096 (some 4096)).getD default).alloc_strategy =
            HEAP_STRATEGY_WORST_FIT →
          ∀ (j : Nat) (b2 : mem_block_t),
            ((heap_init 4096 (some 4096)).getD default).blocks[j]? = some b2 →
            mem_block_can_satisfy b2 8 = true →
            b2.size ≤ b.size ∧
              (b2.size = b.size → b.start_addr ≤ b2.start_addr))) :=
  find_free_block_policy ((heap_init 4096 (some 4096)).getD default) 8
    (by decide)
    (by
      have hb : ((heap_init 4096 (some 4096)).getD default).blocks
          = [{ start_addr := 4096, size := 4096, state := MEM_FREE,
               prev := none }] := by decide
      rw [hb]
      exact List.pairwise_singleton _ _)

/- ===================== C8 ===================== -/

/-- Heap states reachable from `heap_init` through `heap_allocate` and
`heap_free`, with arbitrary reservation addresses handed back by the VM
layer. -/
inductive HReach : heap_t → Prop where
  | init (initial_size : Nat) (vm : Option Nat) (h : heap_t) :
      heap_init initial_size vm = some h → HReach h
  | alloc {h : heap_t} (size : Nat) (vm : Option Nat) :
      HReach h → HReach (heap_allocate h size vm).2
  | free {h : heap_t} (addr : Nat) :
      HReach h → HReach (heap_free h addr).2

/-- Every block's start address is 8-byte aligned. -/
def blocksAligned (h : heap_t) : Prop :=
  ∀ b ∈ h.blocks, b.start_addr % ALIGN_SIZE = 0

theorem align_up8_mod (s : Nat) : ALIGN_UP s ALIGN_SIZE % ALIGN_SIZE = 0 := by
  unfold ALIGN_UP ALIGN_SIZE
  exact Nat.mul_mod_left _ _

theorem add64_aligned {a b : Nat} (ha : a % ALIGN_SIZE = 0)
    (hb : b % ALIGN_SIZE = 0) : add64 a b % ALIGN_SIZE = 0 := by
  unfold add64 MOD
  unfold ALIGN_SIZE at *
  omega

theorem mem_block_create_some {o sz : Nat} {st : mem_state_t}
    {b : mem_block_t} (h : mem_block_create o sz st = some b) :
    sz ≠ 0 ∧ o % ALIGN_SIZE = 0 ∧
    b = { start_addr := o, size := sz, state := st, prev := none } := by
  unfold mem_block_create at h
  by_cases h1 : sz = 0
  · rw [if_pos h1] at h; cases h
  · rw [if_neg h1] at h
    by_cases h2 : ¬ IS_ALIGNED o ALIGN_SIZE
    · rw [if_pos h2] at h; cases h
    · rw [if_neg h2] at h
      injection h with h3
      push_neg at h2
      refine ⟨h1, ?_, h3.symm⟩
      unfold IS_ALIGNED at h2
      simpa using h2

theorem setHeadPrev_starts (pa : Nat) (l : List mem_block_t) :
    ∀ x ∈ setHeadPrev pa l, ∃ y ∈ l, x.start_addr = y.start_addr := by
  cases l with
  | nil => intro x hx; cases hx
  | cons s rest =>
    intro x hx
    rcases List.mem_cons.mp hx with rfl | hx2
    · exact ⟨s, List.mem_cons_self _ _, rfl⟩
    · exact ⟨x, List.mem_cons_of_mem _ hx2, rfl⟩

theorem splitChainAt_aligned {bs : List mem_block_t} {i k : Nat}
    {l : List mem_block_t} (hs : splitChainAt bs i k = some l)
    (hal : ∀ b ∈ bs, b.start_addr % ALIGN_SIZE = 0)
    (hk : k % ALIGN_SIZE = 0) :
    ∀ x ∈ l, x.start_addr % ALIGN_SIZE = 0 := by
  obtain ⟨b, left, right, hget, hsplit, hshape⟩ := splitChainAt_some _ _ _ _ hs
  obtain ⟨-, -, -, hleft, hright⟩ := mem_block_split_some hsplit
  have hb := hal b (List.getElem?_mem hget)
  intro x hx
  rw [hshape] at hx
  rcases List.mem_append.mp hx with hx1 | hx2
  · exact hal x (List.mem_of_mem_take hx1)
  · rcases List.mem_cons.mp hx2 with rfl | hx3
    · rw [hleft]
      exact hb
    · rcases List.mem_cons.mp hx3 with rfl | hx4
      · rw [hright]
        exact add64_aligned hb hk
      · obtain ⟨y, hy, hxy⟩ := setHeadPrev_starts _ _ x hx4
        rw [hxy]
        exact hal y (List.mem_of_mem_drop hy)

theorem heap_alloc_finish_aligned (h : heap_t) (i k : Nat)
    (hal : blocksAligned h) (hk : k % ALIGN_SIZE = 0) :
    blocksAligned (heap_alloc_finish h i k).2 ∧
    ∀ p, (heap_alloc_finish h i k).1 = some p → p % ALIGN_SIZE = 0 := by
  unfold heap_alloc_finish
  cases hget : h.blocks[i]? with
  | none => exact ⟨hal, by intro p hp; cases hp⟩
  | some b =>
    dsimp only
    by_cases hlt : k < b.size
    · rw [if_pos hlt]
      cases hs : splitChainAt h.blocks i k with
      | none => exact ⟨hal, by intro p hp; cases hp⟩
      | some blocks2 =>
        dsimp only
        have hal2 : ∀ x ∈ blocks2, x.start_addr % ALIGN_SIZE = 0 :=
          splitChainAt_aligned hs hal hk
        cases hget2 : blocks2[i]? with
        | none => exact ⟨hal2, by intro p hp; cases hp⟩
        | some bb =>
          dsimp only
          constructor
          · intro x hx
            rcases List.mem_or_eq_of_mem_set hx with hx1 | rfl
            · exact hal2 x hx1
            · exact hal2 bb (List.getElem?_mem hget2)
          · intro p hp
            injection hp with hp2
            rw [← hp2]
            exact hal2 bb (List.getElem?_mem hget2)
    · rw [if_neg hlt]
      dsimp only
      rw [hget]
      dsimp only
      constructor
      · intro x hx
        rcases List.mem_or_eq_of_mem_set hx with hx1 | rfl
        · exact hal x hx1
        · exact hal b (List.getElem?_mem hget)
      · intro p hp
        injection hp with hp2
        rw [← hp2]
        exact hal b (List.getElem?_mem hget)

theorem insertExtendedAux_starts (nb : mem_block_t) :
    ∀ (l : List mem_block_t) (x : mem_block_t), x ∈ (insertExtendedAux nb l).1 →
      x.start_addr = nb.start_addr ∨ ∃ y ∈ l, x.start_addr = y.start_addr := by
  intro l
  induction l with
  | nil =>
    intro x hx
    simp only [insertExtendedAux] at hx
    rcases List.mem_cons.mp hx with rfl | hx2
    · exact Or.inl rfl
    · cases hx2
  | cons c rest ih =>
    intro x hx
    simp only [insertExtendedAux] at hx
    by_cases hc : c.start_addr < nb.start_addr
    · rw [if_pos hc] at hx
      rcases List.mem_cons.mp hx with rfl | hx2
      · exact Or.inr ⟨x, List.mem_cons_self _ _, rfl⟩
      · rcases ih x hx2 with h1 | ⟨y, hy, hxy⟩
        · exact Or.inl h1
        · exact Or.inr ⟨y, List.mem_cons_of_mem _ hy, hxy⟩
    · rw [if_neg hc] at hx
      rcases List.mem_cons.mp hx with rfl | hx2
      · exact Or.inl rfl
      · rcases List.mem_cons.mp hx2 with rfl | hx3
        · exact Or.inr ⟨_, List.mem_cons_self _ _, rfl⟩
        · exact Or.inr ⟨x, List.mem_cons_of_mem _ hx3, rfl⟩

theorem insertExtended_starts (nb : mem_block_t) (l : List mem_block_t) :
    ∀ x ∈ (insertExtended nb l).1,
      x.start_addr = nb.start_addr ∨ ∃ y ∈ l, x.start_addr = y.start_addr := by
  cases l with
  | nil =>
    intro x hx
    rcases List.mem_cons.mp hx with rfl | hx2
    · exact Or.inl rfl
    · cases hx2
  | cons c rest =>
    intro x hx
    simp only [insertExtended] at hx
    by_cases hc : c.start_addr < nb.start_addr
    · rw [if_pos hc] at hx
      rcases List.mem_cons.mp hx with rfl | hx2
      · exact Or.inr ⟨x, List.mem_cons_self _ _, rfl⟩
      · rcases insertExtendedAux_starts nb rest x hx2 with h1 | ⟨y, hy, hxy⟩
        · exact Or.inl h1
        · exact Or.inr ⟨y, List.mem_cons_of_mem _ hy, hxy⟩
    · rw [if_neg hc] at hx
      rcases List.mem_cons.mp hx with rfl | hx2
      · exact Or.inl rfl
      · rcases List.mem_cons.mp hx2 with rfl | hx3
        · exact Or.inr ⟨_, List.mem_cons_self _ _, rfl⟩
        · exact Or.inr ⟨x, List.mem_cons_of_mem _ hx3, rfl⟩

theorem heap_allocate_aligned {h : heap_t} (hal : blocksAligned h)
    (s : Nat) (vm : Option Nat) :
    blocksAligned (heap_allocate h s vm).2 ∧
    ∀ p, (heap_allocate h s vm).1 = some p → p % ALIGN_SIZE = 0 := by
  unfold heap_allocate
  by_cases hs : s = 0
  · rw [if_pos hs]
    exact ⟨hal, by intro p hp; cases hp⟩
  · rw [if_neg hs]
    dsimp only
    cases hf : heap_find_free_block h (ALIGN_UP s ALIGN_SIZE) with
    | some i => exact heap_alloc_finish_aligned h i _ hal (align_up8_mod s)
    | none =>
      dsimp only
      cases vm with
      | none => exact ⟨hal, by intro p hp; cases hp⟩
      | some o =>
        dsimp only
        cases hc : mem_block_create o (ALIGN_UP (ALIGN_UP s ALIGN_SIZE) PAGE_SIZE)
            MEM_FREE with
        | none => exact ⟨hal, by intro p hp; cases hp⟩
        | some nb =>
          dsimp only
          obtain ⟨-, ho, hnb⟩ := mem_block_create_some hc
          rcases hins : insertExtended nb h.blocks with ⟨blocks1, j⟩
          have hal1 : ∀ x ∈ blocks1, x.start_addr % ALIGN_SIZE = 0 := by
            intro x hx
            have hx2 : x ∈ (insertExtended nb h.blocks).1 := by
              rw [hins]
              exact hx
            rcases insertExtended_starts nb h.blocks x hx2 with h1 | ⟨y, hy, hxy⟩
            · rw [h1, hnb]
              exact ho
            · rw [hxy]
              exact hal y hy
          refine heap_alloc_finish_aligned _ j _ ?_ (align_up8_mod s)
          intro x hx
          exact hal1 x hx

theorem tryMergeNext_starts (bs : List mem_block_t) (i : Nat) :
    ∀ x ∈ (tryMergeNext bs i).1, ∃ y ∈ bs, x.start_addr = y.start_addr := by
  intro x hx
  unfold tryMergeNext at hx
  cases hget : bs[i]? with
  | none =>
    rw [hget] at hx
    exact ⟨x, hx, rfl⟩
  | some b =>
    rw [hget] at hx
    cases hget2 : bs[i+1]? with
    | none =>
      rw [hget2] at hx
      exact ⟨x, hx, rfl⟩
    | some nxt =>
      rw [hget2] at hx
      dsimp only at hx
      by_cases h1 : nxt.state = MEM_FREE
      · rw [if_pos h1] at hx
        by_cases h2 : b.state = MEM_FREE ∧ mem_block_is_adjacent b nxt = true
        · rw [if_pos h2] at hx
          dsimp only at hx
          rcases List.mem_append.mp hx with hx1 | hx2
          · exact ⟨x, List.mem_of_mem_take hx1, rfl⟩
          · rcases List.mem_cons.mp hx2 with rfl | hx3
            · exact ⟨b, List.getElem?_mem hget, rfl⟩
            · obtain ⟨y, hy, hxy⟩ := setHeadPrev_starts _ _ x hx3
              exact ⟨y, List.mem_of_mem_drop hy, hxy⟩
        · rw [if_neg h2] at hx
          exact ⟨x, hx, rfl⟩
      · rw [if_neg h1] at hx
        exact ⟨x, hx, rfl⟩

theorem tryMergePrev_starts (bs : List mem_block_t) (i : Nat) :
    ∀ x ∈ (tryMergePrev bs i).1, ∃ y ∈ bs, x.start_addr = y.start_addr := by
  intro x hx
  unfold tryMergePrev at hx
  cases hget : bs[i]? with
  | none =>
    rw [hget] at hx
    exact ⟨x, hx, rfl⟩
  | some b =>
    rw [hget] at hx
    dsimp only at hx
    cases hprev : b.prev with
    | none =>
      rw [hprev] at hx
      exact ⟨x, hx, rfl⟩
    | some pa =>
      rw [hprev] at hx
      dsimp only at hx
      cases hfind : bs.find? (fun d => d.start_addr == pa) with
      | none =>
        rw [hfind] at hx
        exact ⟨x, hx, rfl⟩
      | some d =>
        rw [hfind] at hx
        dsimp only at hx
        by_cases h1 : d.state = MEM_FREE
        · rw [if_pos h1] at hx
          by_cases h2 : b.state = MEM_FREE ∧ mem_block_is_adjacent d b = true
          · rw [if_pos h2] at hx
            by_cases h3 : 1 ≤ i ∧ bs[i-1]? = some d
            · rw [if_pos h3] at hx
              dsimp only at hx
              rcases List.mem_append.mp hx with hx1 | hx2
              · exact ⟨x, List.mem_of_mem_take hx1, rfl⟩
              · rcases List.mem_cons.mp hx2 with rfl | hx3
                · exact ⟨d, List.mem_of_find?_eq_some hfind, rfl⟩
                · obtain ⟨y, hy, hxy⟩ := setHeadPrev_starts _ _ x hx3
                  exact ⟨y, List.mem_of_mem_drop hy, hxy⟩
            · rw [if_neg h3] at hx
              exact ⟨x, hx, rfl⟩
          · rw [if_neg h2] at hx
            exact ⟨x, hx, rfl⟩
        · rw [if_neg h1] at hx
          exact ⟨x, hx, rfl⟩

theorem heap_try_merge_adjacent_starts (bs : List mem_block_t) (i : Nat) :
    ∀ x ∈ (heap_try_merge_adjacent bs i).1,
      ∃ y ∈ bs, x.start_addr = y.start_addr := by
  intro x hx
  unfold heap_try_merge_adjacent at hx
  cases hget : bs[i]? with
  | none =>
    rw [hget] at hx
    exact ⟨x, hx, rfl⟩
  | some b =>
    rw [hget] at hx
    dsimp only at hx
    by_cases h1 : b.state ≠ MEM_FREE
    · rw [if_pos h1] at hx
      exact ⟨x, hx, rfl⟩
    · rw [if_neg h1] at hx
      rcases hn : tryMergeNext bs i with ⟨bs1, c1⟩
      rw [hn] at hx
      dsimp only at hx
      rcases hp : tryMergePrev bs1 i with ⟨bs2, c2⟩
      rw [hp] at hx
      dsimp only at hx
      have h2 := tryMergePrev_starts bs1 i x (by rw [hp]; exact hx)
      obtain ⟨y, hy, hxy⟩ := h2
      have h3 := tryMergeNext_starts bs i y (by rw [hn]; exact hy)
      obtain ⟨z, hz, hyz⟩ := h3
      exact ⟨z, hz, by rw [hxy, hyz]⟩

theorem heap_free_aligned {h : heap_t} (hal : blocksAligned h) (addr : Nat) :
    blocksAligned (heap_free h addr).2 := by
  unfold heap_free
  by_cases h0 : addr = 0
  · rw [if_pos h0]
    exact hal
  · rw [if_neg h0]
    cases hfind : heap_find_block h addr with
    | none => exact hal
    | some i =>
      dsimp only
      cases hget : h.blocks[i]? with
      | none => exact hal
      | some b =>
        dsimp only
        by_cases hst : b.state ≠ MEM_ALLOCATED
        · rw [if_pos hst]
          exact hal
        · rw [if_neg hst]
          rcases hm : heap_try_merge_adjacent
              (h.blocks.set i { b with state := MEM_FREE }) i with ⟨bs2, mg⟩
          intro x hx
          have h2 := heap_try_merge_adjacent_starts
              (h.blocks.set i { b with state := MEM_FREE }) i x
              (by rw [hm]; exact hx)
          obtain ⟨y, hy, hxy⟩ := h2
          rcases List.mem_or_eq_of_mem_set hy with hy1 | rfl
          · rw [hxy]
            exact hal y hy1
          · rw [hxy]
            exact hal b (List.getElem?_mem hget)

theorem heap_init_aligned {sz : Nat} {vm : Option Nat} {h : heap_t}
    (hinit : heap_init sz vm = some h) : blocksAligned h := by
  unfold heap_init at hinit
  by_cases h1 : sz = 0 ∨ sz % PAGE_SIZE ≠ 0
  · rw [if_pos h1] at hinit; cases hinit
  · rw [if_neg h1] at hinit
    cases vm with
    | none => cases hinit
    | some o =>
      dsimp only at hinit
      cases hc : mem_block_create o sz MEM_FREE with
      | none => rw [hc] at hinit; cases hinit
      | some b =>
        rw [hc] at hinit
        dsimp only at hinit
        injection hinit with h2
        obtain ⟨-, ho, hb⟩ := mem_block_create_some hc
        intro x hx
        rw [← h2] at hx
        dsimp only at hx
        rcases List.mem_cons.mp hx with rfl | hx2
        · rw [hb]
          exact ho
        · cases hx2

/-- Every reachable heap state has only 8-byte-aligned block starts:
`mem_block_create` refuses misaligned starts, splitting adds an 8-aligned
offset to an aligned start, and merging and freeing never create new
start addresses. -/
theorem reach_aligned {h : heap_t} (hr : HReach h) : blocksAligned h := by
  induction hr with
  | init sz vm h0 hinit => exact heap_init_aligned hinit
  | alloc s vm hr ih => exact (heap_allocate_aligned ih s vm).1
  | free addr hr ih => exact heap_free_aligned ih addr

/-- C8: every non-null address returned by `heap_allocate` (the heap
behind `myalloc`) from any reachable heap state is 8-byte aligned, for
every request size and any reservation address the VM layer hands back —
covering allocations served by splitting a larger FREE block and
allocations served from a newly extended range. -/
theorem allocate_returns_aligned {h : heap_t} (hr : HReach h) (s : Nat)
    (vm : Option Nat) (p : Nat) (hp : (heap_allocate h s vm).1 = some p) :
    p % ALIGN_SIZE = 0 :=
  (heap_allocate_aligned (reach_aligned hr) s vm).2 p hp

/-- Witness for C8: allocating 100 bytes from a freshly initialised heap
returns the 8-aligned address 4096. -/
theorem allocate_returns_aligned_witness : (4096 : Nat) % ALIGN_SIZE = 0 :=
  allocate_returns_aligned
    (HReach.init 4096 (some 4096) ((heap_init 4096 (some 4096)).getD default)
      (by decide))
    100 none 4096 (by decide)

/- ===================== C4 ===================== -/

/-- C4 counterexample: the stats triple does NOT return exactly to its
pre-allocation values after `free(alloc(s))`. On a fresh 4096-byte heap
(reservation at `0x1000`) with stats `(allocated, free, peak) =
(0, 4096, 0)`, `heap_allocate(8192)` extends the heap (new reservation of
8192 bytes at `0x100000`) and returns it; `heap_free` of that address
returns ok, but the stats then read `(0, 12288, 8192)`: the extension has
permanently grown `total_free` and the peak is monotone. -/
theorem alloc_free_stats_claim_false :
    (heap_allocate ((heap_init 4096 (some 4096)).getD default) 8192
        (some 1048576)).1 = some 1048576 ∧
    (heap_free
      (heap_allocate ((heap_init 4096 (some 4096)).getD default) 8192
        (some 1048576)).2 1048576).1 = 0 ∧
    heap_stats ((heap_init 4096 (some 4096)).getD default) = (0, 4096, 0) ∧
    heap_stats
      (heap_free
        (heap_allocate ((heap_init 4096 (some 4096)).getD default) 8192
          (some 1048576)).2 1048576).2 = (0, 12288, 8192) ∧
    ¬ (heap_stats
        (heap_free
          (heap_allocate ((heap_init 4096 (some 4096)).getD default) 8192
            (some 1048576)).2 1048576).2 =
       heap_stats ((heap_init 4096 (some 4096)).getD default)) := by
  decide

/-- C4 (amended): for every `s > 0` and well-shaped heap state from which
`heap_allocate(s)` returns a non-null address `p` without extending the
heap (a free block satisfies the rounded request), `heap_free(p)`
immediately afterwards returns ok, `total_allocated` and `total_free`
return exactly to their pre-allocation values, and `peak_allocated`
returns to its value if and only if the allocation did not raise the
running peak (pre-allocation `total_allocated` + rounded size ≤ prior
peak) — when it was raised, free leaves it at the raised value; a
raised peak is monotone and an extension additionally grows
`total_free` by the reserved length for good. -/
theorem alloc_free_stats_roundtrip (h : heap_t) (s p : Nat) (h1 : heap_t)
    (hchain : chainOk h.blocks)
    (hbound : h.total_allocated + ALIGN_UP s ALIGN_SIZE < MOD)
    (htf : h.total_free < MOD)
    (hs : 0 < s)
    (hfit : heap_find_free_block h (ALIGN_UP s ALIGN_SIZE) ≠ none)
    (hres : heap_allocate h s none = (some p, h1)) :
    (heap_free h1 p).1 = 0 ∧
    (heap_free h1 p).2.total_allocated = h.total_allocated ∧
    (heap_free h1 p).2.total_free = h.total_free ∧
    ((heap_free h1 p).2.peak_allocated = h.peak_allocated ↔
      h.total_allocated + ALIGN_UP s ALIGN_SIZE ≤ h.peak_allocated) := by
  have hta : h.total_allocated < MOD := by omega
  cases hf : heap_find_free_block h (ALIGN_UP s ALIGN_SIZE) with
  | none => exact absurd hf hfit
  | some i =>
  obtain ⟨b, hget, hcan, hk0⟩ := heap_find_free_block_some hf
  unfold heap_allocate at hres
  rw [if_neg (by omega : ¬ s = 0)] at hres
  dsimp only at hres
  rw [hf] at hres
  dsimp only at hres
  obtain ⟨hp, hta1, htf1, hpk1, tail, hblocks⟩ :=
    heap_alloc_finish_success hget hcan hres
  have hbmem : b ∈ h.blocks := List.getElem?_mem hget
  obtain ⟨hbpos, hbszpos, hbbound⟩ := hchain.2 b hbmem
  have hcan2 := hcan
  unfold mem_block_can_satisfy at hcan2
  rw [Bool.and_eq_true] at hcan2
  have hkb : ALIGN_UP s ALIGN_SIZE ≤ b.size := by simpa using hcan2.2
  have hkpos : 0 < ALIGN_UP s ALIGN_SIZE := Nat.pos_of_ne_zero hk0
  subst hp
  have hlen : (h.blocks.take i).length = i := by
    rw [List.length_take]
    have hi : i < h.blocks.length := (List.getElem?_eq_some.mp hget).1
    omega
  have hb2get : h1.blocks[i]? =
      some { b with size := ALIGN_UP s ALIGN_SIZE, state := MEM_ALLOCATED } := by
    rw [hblocks]
    exact getElem?_append_cons _ _ _ _ hlen
  have hfind : heap_find_block h1 b.start_addr = some i := by
    unfold heap_find_block
    rw [if_neg (by omega : ¬ b.start_addr = 0), hblocks]
    have hpre : ∀ x ∈ h.blocks.take i, mem_block_contains x b.start_addr = false :=
      fun x hx =>
        contains_false_of_range_le (pairwise_prefix_le h.blocks i b hchain.1 hget x hx)
    have hcb2 : mem_block_contains
        { b with size := ALIGN_UP s ALIGN_SIZE, state := MEM_ALLOCATED }
        b.start_addr = true := by
      have := contains_start (x :=
        { b with size := ALIGN_UP s ALIGN_SIZE, state := MEM_ALLOCATED })
        (by dsimp only; omega) (by dsimp only; omega)
      exact this
    rw [findBlockScan_found b.start_addr _ _ tail hpre hcb2, hlen]
  obtain ⟨hr0, hrta, hrtf, hrpk⟩ :=
    heap_free_success (by omega : b.start_addr ≠ 0) hfind hb2get rfl
  refine ⟨hr0, ?_, ?_, ?_⟩
  · rw [hrta]
    dsimp only
    rw [hta1, sub64_add64_cancel _ _ hta]
  · rw [hrtf]
    dsimp only
    rw [htf1, add64_sub64_cancel _ _ htf]
  · rw [hrpk, hpk1]
    rw [add64_eq_of_lt (by omega)]
    split_ifs with hlt
    · omega
    · omega

/-- Witness for C4 (amended): `free(alloc(100))` on a fresh 4096-byte heap
restores `allocated` and `free` exactly (the request is served from the
existing free block by splitting); the peak was raised (0 + 104 > 0) and
accordingly does not return. -/
theorem alloc_free_stats_roundtrip_witness :
    (heap_free
      (heap_allocate ((heap_init 4096 (some 4096)).getD default) 100 none).2
      4096).1 = 0 ∧
    (heap_free
      (heap_allocate ((heap_init 4096 (some 4096)).getD default) 100 none).2
      4096).2.total_allocated =
      ((heap_init 4096 (some 4096)).getD default).total_allocated ∧
    (heap_free
      (heap_allocate ((heap_init 4096 (some 4096)).getD default) 100 none).2
      4096).2.total_free =
      ((heap_init 4096 (some 4096)).getD default).total_free ∧
    ((heap_free
        (heap_allocate ((heap_init 4096 (some 4096)).getD default) 100 none).2
        4096).2.peak_allocated =
        ((heap_init 4096 (some 4096)).getD default).peak_allocated ↔
      ((heap_init 4096 (some 4096)).getD default).total_allocated +
        ALIGN_UP 100 ALIGN_SIZE ≤
        ((heap_init 4096 (some 4096)).getD default).peak_allocated) :=
  alloc_free_stats_roundtrip ((heap_init 4096 (some 4096)).getD default) 100 4096
    (heap_allocate ((heap_init 4096 (some 4096)).getD default) 100 none).2
    (by refine ⟨?_, by decide⟩
        have hb : ((heap_init 4096 (some 4096)).getD default).blocks
            = [{ start_addr := 4096, size := 4096, state := MEM_FREE,
                 prev := none }] := by decide
        rw [hb]
        exact List.pairwise_singleton _ _)
    (by decide) (by decide) (by decide) (by decide) (by decide)

end OsRepo
